import Mathlib

/-!
Verification development for the consensus-state / validator-set /
state-store / block-indexer core of this repository.

The block indexer (`BlockerIndexer`) and the pubsub `query` package are
embedded from the source files in `src/`.  The `ValidatorSet`,
`UpdateState` and `StateStore` implementations are not present under
`src/` (only their tests are), so those definitions are modelled from
the specification, with every behavioural choice that the spec leaves
open pinned by the concrete expected values asserted in
`src/state/state_test.go` (big.Int `Div` centering is Euclidean/floor
division, `RescalePriorities` uses Go's native truncating division, and
an increment performs rescale, then center, then the raw
add/pick/subtract steps).
-/

set_option maxRecDepth 10000

namespace Cometbft

/-- Go's native `int64` division: truncation toward zero (`Int.tdiv`). -/
def goDiv (a b : Int) : Int := Int.tdiv a b

/-- `big.Int.Div` is Euclidean division; for the positive divisors used by
the priority algorithm this is floor division (`Int.fdiv`). -/
def bigDiv (a b : Int) : Int := Int.fdiv a b

/-- Modelled from the spec: `MaxTotalVotingPower = (1<<60) - 1` (§3). -/
def MaxTotalVotingPower : Int := 2 ^ 60 - 1

/-- Lexicographic order on character lists (kernel-evaluable stand-in
for the byte order of Go strings; the strings involved are ASCII). -/
def charListLt : List Char → List Char → Bool
  | [], [] => false
  | [], _ :: _ => true
  | _ :: _, [] => false
  | c :: cs, d :: ds => if c = d then charListLt cs ds else c.toNat < d.toNat

/-- Lexicographic string order (see `charListLt`). -/
def strLt (a b : String) : Bool := charListLt a.data b.data

/-- Insert into a `le`-sorted list (kernel-evaluable sorting helper). -/
def insertSorted (le : α → α → Bool) (x : α) : List α → List α
  | [] => [x]
  | y :: ys => if le x y then x :: y :: ys else y :: insertSorted le x ys

/-- Insertion sort (kernel-evaluable, stable). -/
def insertionSort (le : α → α → Bool) (l : List α) : List α :=
  l.foldr (insertSorted le) []

/-- Modelled from the spec: a validator is an address, a voting power and a
proposer priority (§3).  The public key is identified with the address
(the address is derived injectively from the key). -/
structure Validator where
  addr : Nat
  power : Int
  priority : Int
  deriving DecidableEq, Repr

/-- Modelled from the spec: a validator set is an ordered sequence of
validators plus a cached `Proposer` pointer (§3). -/
structure ValidatorSet where
  vals : List Validator
  proposer : Option Validator
  deriving DecidableEq, Repr

namespace ValidatorSet

/-- Cached total voting power: the sum of all powers (§4.1). -/
def totalVotingPower (vs : ValidatorSet) : Int :=
  (vs.vals.map Validator.power).sum

/-- `a` beats `b` for proposer: higher priority wins, ties go to the
smaller address (§4.1 `GetProposer` contract, bytes.Compare on raw
addresses). -/
def beats (a b : Validator) : Bool :=
  a.priority > b.priority || (a.priority == b.priority && a.addr < b.addr)

/-- The validator with the largest proposer priority (ties to the smaller
address); `none` on the empty set. -/
def findProposer (vs : ValidatorSet) : Option Validator :=
  vs.vals.foldl (fun acc v =>
    match acc with
    | none => some v
    | some w => if beats v w then some v else some w) none

/-- Modelled from the spec: `GetProposer()` returns the cached proposer,
computing (and conceptually caching) it when absent (§4.1). -/
def getProposer (vs : ValidatorSet) : Option Validator :=
  match vs.proposer with
  | some p => some p
  | none => vs.findProposer

/-- Center step: subtract the average priority (big.Int Euclidean
division, i.e. floor for the positive divisor `n`) from every priority
(§4.1 step 1; the floor semantics is pinned by
`TestProposerPriorityDoesNotGetResetToZero`). -/
def center (vs : ValidatorSet) : ValidatorSet :=
  if vs.vals.length = 0 then vs
  else
    let avg := bigDiv (vs.vals.map Validator.priority).sum vs.vals.length
    { vs with vals := vs.vals.map fun v => { v with priority := v.priority - avg } }

def maxPriority (vs : ValidatorSet) : Int :=
  match vs.vals with
  | [] => 0
  | v :: rest => rest.foldl (fun acc w => max acc w.priority) v.priority

def minPriority (vs : ValidatorSet) : Int :=
  match vs.vals with
  | [] => 0
  | v :: rest => rest.foldl (fun acc w => min acc w.priority) v.priority

/-- Priority spread `max(priorities) - min(priorities)` (computed against
0 on the empty set, as in the source's computeMaxMinPriorityDiff). -/
def priorityDiff (vs : ValidatorSet) : Int := vs.maxPriority - vs.minPriority

/-- Rescale step: when the spread exceeds `diffMax`, divide every
priority by `ceil(diff / diffMax)` using Go's truncating division
(§4.1 step 2; truncation pinned by the `-38/4 = -9` expectation in
`TestProposerPriorityDoesNotGetResetToZero`). -/
def rescale (vs : ValidatorSet) (diffMax : Int) : ValidatorSet :=
  let d := vs.priorityDiff
  if d > diffMax ∧ diffMax > 0 then
    let ratio := goDiv (d + diffMax - 1) diffMax
    { vs with vals := vs.vals.map fun v => { v with priority := goDiv v.priority ratio } }
  else vs

/-- One raw increment step: add each validator's power to its priority,
pick the winner, subtract the total power from the winner (§4.1 steps
3–5).  Returns the new set (with the proposer cache updated to the
winner). -/
def rawStep (vs : ValidatorSet) : ValidatorSet :=
  let tvp := vs.totalVotingPower
  let bumped := vs.vals.map fun v => { v with priority := v.priority + v.power }
  let winner := ValidatorSet.findProposer { vals := bumped, proposer := none }
  match winner with
  | none => { vals := bumped, proposer := none }
  | some w =>
      { vals := bumped.map fun v =>
          if v.addr = w.addr then { v with priority := v.priority - tvp } else v
        proposer := some { w with priority := w.priority - tvp } }

/-- Modelled from the spec: `IncrementProposerPriority(times)` rescales to
the `2 * totalVotingPower` window, centers, and then performs `times`
raw add/pick/subtract steps (§4.1; the once-per-call placement of
rescale/center is pinned by the arithmetic in `state_test.go`). -/
def incrementProposerPriority (times : Nat) (vs : ValidatorSet) : ValidatorSet :=
  let vs := (vs.rescale (2 * vs.totalVotingPower)).center
  Nat.rec vs (fun _ acc => acc.rawStep) times

/-- The list of (address, power) pairs: the data covered by
`ValidatorSet.Hash()` (priorities are not hashed). -/
def simplified (vs : ValidatorSet) : List (Nat × Int) :=
  vs.vals.map fun v => (v.addr, v.power)

end ValidatorSet

/-- Failure modes of validator-set updates and of the state transition
(§4.2 failure modes). -/
inductive UpdateErr where
  | invalidValidatorUpdate
  | emptyValidatorSet
  | totalVotingPowerOverflow
  deriving DecidableEq, Repr

/-- A single validator update: address plus new voting power (power 0
removes, positive power adds or updates; §4.1). -/
structure VUpdate where
  addr : Nat
  power : Int
  deriving DecidableEq, Repr

namespace ValidatorSet

/-- Apply a list of updates to the sorted validator list: removals drop
the address, power changes keep the existing priority, and new
validators enter with priority `newPrio` (§4.1 "Adding a validator"). -/
def applyChanges (olds : List Validator) (changes : List VUpdate) (newPrio : Int) :
    List Validator :=
  let survivors := olds.filterMap fun v =>
    match changes.find? (fun c => c.addr == v.addr) with
    | none => some v
    | some c => if c.power = 0 then none else some { v with power := c.power }
  let newcomers := (changes.filter fun c =>
      c.power ≠ 0 ∧ (olds.all fun v => v.addr ≠ c.addr)).map fun c =>
    { addr := c.addr, power := c.power, priority := newPrio }
  insertionSort (fun a b => a.addr ≤ b.addr) (survivors ++ newcomers)

/-- The total voting power the set would have after applying `changes`. -/
def totalAfter (olds : List Validator) (changes : List VUpdate) : Int :=
  ((applyChanges olds changes 0).map Validator.power).sum

/-- Whether an update list names the same address twice (rejected, as by
`processChanges` in the source's update pipeline). -/
def hasDupAddr : List VUpdate → Bool
  | [] => false
  | c :: rest => rest.any (fun d => d.addr == c.addr) || hasDupAddr rest

/-- Modelled from the spec: `UpdateWithChangeSet(changes)` — fails on a
negative power, on a duplicated update address, on an empty resulting
set, or on total power above `MaxTotalVotingPower`; a new validator
enters with priority `-(T' + T'/8)` where `T'` is the total power after
the update; the set is then rescaled to the `2*T'` window and centered
(§4.1; the rescale-then-center order is pinned by `state_test.go`). -/
def updateWithChangeSet (vs : ValidatorSet) (changes : List VUpdate) :
    Except UpdateErr ValidatorSet :=
  if changes.any (fun c => c.power < 0) || hasDupAddr changes then
    .error .invalidValidatorUpdate
  else
    let tvpAfter := totalAfter vs.vals changes
    if tvpAfter > MaxTotalVotingPower then .error .totalVotingPowerOverflow
    else
      let newPrio := -(tvpAfter + goDiv tvpAfter 8)
      let applied := applyChanges vs.vals changes newPrio
      if applied.length = 0 then .error .emptyValidatorSet
      else
        let vs' : ValidatorSet := { vals := applied, proposer := none }
        .ok ((vs'.rescale (2 * tvpAfter)).center)

/-- The post-update image of a surviving validator: power replaced by the
matching change (if any), priority kept (proof-side restatement of the
survivor branch of `applyChanges`). -/
def survivorOf (changes : List VUpdate) (v : Validator) : Validator :=
  match changes.find? (fun c => c.addr == v.addr) with
  | none => v
  | some c => { v with power := c.power }

end ValidatorSet

/-- An ABCI event attribute (`abci.EventAttribute`): key, value, and the
index flag. -/
structure EventAttribute where
  key : String
  value : String
  index : Bool
  deriving DecidableEq, Repr

/-- An ABCI event (`abci.Event`): a type string plus attributes. -/
structure Event where
  type : String
  attributes : List EventAttribute
  deriving DecidableEq, Repr

/-- `abci.ExecTxResult`: the per-transaction execution result. -/
structure ExecTxResult where
  code : Nat
  data : List Nat
  log : String
  info : String
  gasWanted : Int
  gasUsed : Int
  events : List Event
  codespace : String
  deriving DecidableEq, Repr

/-- Modelled from the spec: `abci.DeterministicExecTxResult` (called by
`types.NewResults` in `src/unnamed/part_004` but itself absent from
`src/`) returns a result retaining only `Code`, `Data`, `GasWanted` and
`GasUsed`, with every other field zeroed (§4.2 item 4, glossary
"deterministic projection"). -/
def DeterministicExecTxResult (r : ExecTxResult) : ExecTxResult :=
  { code := r.code, data := r.data, gasWanted := r.gasWanted, gasUsed := r.gasUsed
    log := "", info := "", events := [], codespace := "" }

/-- The byte strings fed to the merkle tree.  Serialization
(`ExecTxResult.Marshal`, validator protobuf encoding) is modelled as a
free injective constructor per encoded shape. -/
inductive Bytes where
  | execTx (r : ExecTxResult)
  | validator (addr : Nat) (power : Int)
  deriving DecidableEq, Repr

/-- A merkle hash value.  SHA-256 is modelled as a free injective
constructor; `empty` is the hash of the empty input (the empty-merkle
sentinel), `leaf`/`inner` are the RFC-6962-style leaf and inner hashes. -/
inductive HashV where
  | empty
  | leaf (b : Bytes)
  | inner (l r : HashV)
  deriving DecidableEq, Repr

/-- `getSplitPoint`: the largest power of two strictly less than `n`
(for `n ≥ 2`). -/
def getSplitPoint (n : Nat) : Nat :=
  if n ≤ 1 then 1 else 2 ^ Nat.log2 (n - 1)

/-- Fuel-driven body of `merkle.HashFromByteSlices` (structural
recursion so that the kernel can evaluate hashes; the fuel never runs
out when it starts at the list length). -/
def hashFBS : Nat → List Bytes → HashV
  | _, [] => .empty
  | _, [b] => .leaf b
  | 0, _ :: _ :: _ => .empty
  | fuel + 1, b1 :: b2 :: rest =>
      let k := getSplitPoint (rest.length + 2)
      .inner (hashFBS fuel ((b1 :: b2 :: rest).take k))
             (hashFBS fuel ((b1 :: b2 :: rest).drop k))

/-- `merkle.HashFromByteSlices`: the empty list hashes to the
empty-merkle sentinel, a singleton to a leaf hash, and a longer list to
an inner hash of the two recursive halves split at the largest power of
two below the length. -/
def hashFromByteSlices (l : List Bytes) : HashV := hashFBS l.length l

/-- `types.NewResults` (src/unnamed/part_004): strip each result to its
deterministic projection. -/
def NewResults (rs : List ExecTxResult) : List ExecTxResult :=
  rs.map DeterministicExecTxResult

/-- `ABCIResults.Hash` (src/unnamed/part_004): the merkle hash of the
marshalled results. -/
def abciResultsHash (rs : List ExecTxResult) : HashV :=
  hashFromByteSlices (rs.map Bytes.execTx)

/-- `sm.TxResultsHash`: hash of the deterministic projections of the tx
results (used by `state_test.go`; the state-package wrapper itself is
absent from `src/`, modelled from the spec §4.2 item 4). -/
def TxResultsHash (rs : List ExecTxResult) : HashV :=
  abciResultsHash (NewResults rs)

/-- `ValidatorSet.Hash()`: merkle hash of the simplified validators
(address/key and power; proposer priorities are not part of the hash). -/
def ValidatorSet.hash (vs : ValidatorSet) : HashV :=
  hashFromByteSlices (vs.vals.map fun v => Bytes.validator v.addr v.power)

/-- Block identifier (hash + partset header), kept opaque. -/
structure BlockID where
  hash : Nat
  partSetHash : Nat
  deriving DecidableEq, Repr

/-- The block header fields consumed by the state transition. -/
structure Header where
  height : Nat
  time : Nat
  deriving DecidableEq, Repr

/-- Modelled from the spec: consensus parameters (§3), kept to the block
limits; none of the settled claims depends on the other groups. -/
structure ConsensusParams where
  blockMaxBytes : Int
  blockMaxGas : Int
  deriving DecidableEq, Repr

/-- `abci.FinalizeBlockResponse`: the application response bundle
consumed by the state transition. -/
structure FinalizeBlockResponse where
  txResults : List ExecTxResult
  validatorUpdates : List VUpdate
  consensusParamUpdates : Option ConsensusParams
  appHash : List Nat
  events : List Event
  deriving DecidableEq, Repr

/-- Modelled from the spec: the blockchain `State` (§3). `InitialHeight`
is fixed at 1 (the only value exercised by the tests in `src/`). -/
structure SMState where
  chainID : String
  lastBlockHeight : Nat
  lastBlockID : BlockID
  lastBlockTime : Nat
  validators : ValidatorSet
  nextValidators : ValidatorSet
  lastValidators : ValidatorSet
  lastHeightValidatorsChanged : Nat
  consensusParams : ConsensusParams
  lastHeightConsensusParamsChanged : Nat
  lastResultsHash : HashV
  appHash : List Nat
  deriving DecidableEq, Repr

/-- Modelled from the spec: `UpdateState` (§4.2).  Rotates the validator
sets with the one-block delay, applies `validatorUpdates` to a copy of
`prev.NextValidators` followed by exactly one priority increment (also
when the update list is empty), merges consensus-parameter updates, and
sets the hashes and block metadata from the responses and header. -/
def updateState (s : SMState) (blockID : BlockID) (header : Header)
    (responses : FinalizeBlockResponse) (validatorUpdates : List VUpdate) :
    Except UpdateErr SMState := do
  let applied ← s.nextValidators.updateWithChangeSet validatorUpdates
  let nValSet := applied.incrementProposerPriority 1
  let changed := applied.simplified ≠ s.nextValidators.simplified
  let lastHeightValsChanged :=
    if changed then header.height + 2 else s.lastHeightValidatorsChanged
  let (params, lastHeightParamsChanged) :=
    match responses.consensusParamUpdates with
    | some u => (u, header.height + 1)
    | none => (s.consensusParams, s.lastHeightConsensusParamsChanged)
  .ok { chainID := s.chainID
        lastBlockHeight := header.height
        lastBlockID := blockID
        lastBlockTime := header.time
        validators := s.nextValidators
        nextValidators := nValSet
        lastValidators := s.validators
        lastHeightValidatorsChanged := lastHeightValsChanged
        consensusParams := params
        lastHeightConsensusParamsChanged := lastHeightParamsChanged
        lastResultsHash := TxResultsHash responses.txResults
        appHash := responses.appHash }

/-- Modelled from the spec: the per-height validator-set record of the
state store — either a full checkpoint or a pointer to the height the
set last changed (§4.3, §9 "checkpoint + diff"). -/
structure ValidatorsInfo where
  lastHeightChanged : Nat
  valSet : Option ValidatorSet
  deriving DecidableEq, Repr

/-- Modelled from the spec: the state store contents — the serialized
state, the per-height validator records and the consensus-params
checkpoints (§4.3, §6 on-disk keys).  Key/value maps are association
lists with the most recent write first. -/
structure Store where
  stateEntry : Option SMState
  valEntries : List (Nat × ValidatorsInfo)
  paramEntries : List (Nat × ConsensusParams)
  deriving DecidableEq, Repr

def emptyStore : Store := ⟨none, [], []⟩

def getVals (h : Nat) (st : Store) : Option ValidatorsInfo :=
  (st.valEntries.find? fun e => e.1 == h).map Prod.snd

def putVals (h : Nat) (vi : ValidatorsInfo) (st : Store) : Store :=
  { st with valEntries := (h, vi) :: st.valEntries }

/-- Modelled from the spec: `ValidatorSetCheckpointInterval = 100 000`
(§4.3 checkpoint policy). -/
def valSetCheckpointInterval : Nat := 100000

/-- The height of the full checkpoint covering `height`: the nearest
checkpoint-interval multiple at or below it. -/
def checkpointHeight (height : Nat) : Nat :=
  valSetCheckpointInterval * (height / valSetCheckpointInterval)

/-- Modelled from the spec: the height whose record is guaranteed to hold
a full validator set for reconstructing `height` — the later of the
periodic checkpoint and the height the set last changed (§4.3, §9). -/
def lastStoredHeightFor (height lastHeightChanged : Nat) : Nat :=
  max (checkpointHeight height) lastHeightChanged

/-- Modelled from the spec: write the validator record for `height`; the
full set is persisted when the set changed at this height or when the
height is a periodic checkpoint (§4.3, §9). -/
def saveValidatorsInfo (height lastHeightChanged : Nat) (vs : ValidatorSet)
    (st : Store) : Store :=
  let full := height = lastHeightChanged ∨ height % valSetCheckpointInterval = 0
  putVals height ⟨lastHeightChanged, if full then some vs else none⟩ st

/-- Lookup failures surfaced by the store (§6 error taxonomy). -/
inductive StoreErr where
  | noValSetForHeight (height : Nat)
  | storeCorrupt
  deriving DecidableEq, Repr

/-- Modelled from the spec: `LoadValidators(height)` — find the record
for `height`; a full record is returned as stored, a pointer record is
reconstructed from the latest full checkpoint by incrementing the
proposer priorities `height - checkpointHeight` times (§4.3). -/
def loadValidators (height : Nat) (st : Store) : Except StoreErr ValidatorSet :=
  if height < 1 then .error (.noValSetForHeight height)
  else
    match getVals height st with
    | none => .error (.noValSetForHeight height)
    | some vi =>
        match vi.valSet with
        | some vs => .ok vs
        | none =>
            let lsh := lastStoredHeightFor height vi.lastHeightChanged
            match getVals lsh st with
            | some ⟨_, some cp⟩ =>
                .ok (cp.incrementProposerPriority (height - lsh))
            | _ => .error .storeCorrupt

/-- Modelled from the spec: `Save(state)` — persist the state, a genesis
record of `Validators` at the first height, the (possibly diff-encoded)
record of `NextValidators` at `LastBlockHeight + 2`, and a
consensus-params checkpoint when the params changed (§4.3). -/
def saveState (s : SMState) (st : Store) : Store :=
  let nextHeight := s.lastBlockHeight + 1
  let st :=
    if nextHeight = 1 then saveValidatorsInfo 1 1 s.validators st else st
  let st := saveValidatorsInfo (nextHeight + 1) s.lastHeightValidatorsChanged
    s.nextValidators st
  let st :=
    if s.lastHeightConsensusParamsChanged = nextHeight then
      { st with paramEntries := (nextHeight, s.consensusParams) :: st.paramEntries }
    else st
  { st with stateEntry := some s }

/-- A genesis state: height 0, validator set freshly incremented into
`NextValidators`, both change markers at the initial height 1
(`MakeGenesisState`; modelled from the spec §3 lifecycle and pinned by
`setupTestCase` in `state_test.go`). -/
def GenesisState (g : SMState) : Prop :=
  g.lastBlockHeight = 0 ∧
  g.lastHeightValidatorsChanged = 1 ∧
  g.nextValidators = g.validators.incrementProposerPriority 1 ∧
  g.validators.vals ≠ []

/-- One committed block: the state advances by `updateState` on the
header of the next height. -/
def StepOk (s s' : SMState) : Prop :=
  ∃ blockID header responses validatorUpdates,
    header.height = s.lastBlockHeight + 1 ∧
    updateState s blockID header responses validatorUpdates = .ok s'

/-- The save-histories generated by the consensus loop: a genesis save
followed by a save after every committed block (§2 data flow). -/
inductive ReachableSave : SMState → Store → Prop where
  | genesis (g : SMState) : GenesisState g → ReachableSave g (saveState g emptyStore)
  | step (s : SMState) (st : Store) (s' : SMState) :
      ReachableSave s st → StepOk s s' → ReachableSave s' (saveState s' st)

/-- The persistent-store invariant carried through every save: the
change-marker bounds, well-formed stored pointers, a full record with
the current membership at every usable anchor height, and correct
loads at the two lookahead heights. -/
def StoreInv (s : SMState) (st : Store) : Prop :=
  1 ≤ s.lastHeightValidatorsChanged ∧
  s.lastHeightValidatorsChanged ≤ s.lastBlockHeight + 2 ∧
  (∀ k vi, getVals k st = some vi → vi.lastHeightChanged ≤ k) ∧
  (∀ j, 1 ≤ j → j ≤ s.lastBlockHeight + 2 → s.lastHeightValidatorsChanged ≤ j →
    (j = s.lastHeightValidatorsChanged ∨ j % valSetCheckpointInterval = 0) →
    ∃ vi vsj, getVals j st = some vi ∧ vi.valSet = some vsj ∧
      vsj.simplified = s.nextValidators.simplified) ∧
  (∃ v, loadValidators (s.lastBlockHeight + 1) st = .ok v ∧
    v.simplified = s.validators.simplified) ∧
  (∃ v, loadValidators (s.lastBlockHeight + 2) st = .ok v ∧
    v.simplified = s.nextValidators.simplified)


/-- The counting loop of `testProposerFreq`: each round reads
`GetProposer()` and then calls `IncrementProposerPriority(1)`; returns
how many of the `times` rounds had the proposer at address `a`. -/
def countRounds (a : Nat) : Nat → ValidatorSet → Nat
  | 0, _ => 0
  | k + 1, vs =>
      (match vs.getProposer with
       | some p => if p.addr = a then 1 else 0
       | none => 0) + countRounds a k (vs.incrementProposerPriority 1)

/-! ### The pubsub `query` package (`src/unnamed/part_002`) -/

/-- Fuel-driven base-2 logarithm (structural recursion so that the
kernel can evaluate it): `natLog2 n = Nat.log2 n`. -/
def log2fuel : Nat → Nat → Nat
  | 0, _ => 0
  | fuel + 1, n => if n < 2 then 0 else log2fuel fuel (n / 2) + 1

def natLog2 (n : Nat) : Nat := log2fuel n n

/-- `big.Int.BitLen`: 0 for 0, otherwise `log2 n + 1`. -/
def bitLen (n : Nat) : Nat := if n = 0 then 0 else natLog2 n + 1

/-- An exact rational represented as an unnormalized fraction; the
representation of arbitrary-precision decimal values.  (Mathlib's `ℚ`
normalizes through functions the kernel cannot evaluate, so the model
carries numerator and positive denominator explicitly and compares by
cross-multiplication.) -/
structure Q2 where
  num : Int
  den : Nat
  deriving DecidableEq, Repr

namespace Q2

/-- Value equality of fractions (cross-multiplication). -/
def beq (a b : Q2) : Bool := a.num * b.den == b.num * a.den

/-- Value order of fractions (cross-multiplication; denominators are
positive by construction). -/
def ble (a b : Q2) : Bool := a.num * b.den ≤ b.num * a.den

def blt (a b : Q2) : Bool := a.num * b.den < b.num * a.den

def ofInt (n : Int) : Q2 := ⟨n, 1⟩

/-- The rational denoted by the fraction. -/
def toRat (a : Q2) : ℚ := (a.num : ℚ) / (a.den : ℚ)

/-- Multiply by `2 ^ s` for a signed exponent `s`. -/
def mulPow2 (a : Q2) (s : Int) : Q2 :=
  if s ≥ 0 then ⟨a.num * 2 ^ s.toNat, a.den⟩ else ⟨a.num, a.den * 2 ^ (-s).toNat⟩

/-- Floor of the fraction (`Int.fdiv` by the positive denominator). -/
def floor (a : Q2) : Int := Int.fdiv a.num a.den

def abs (a : Q2) : Q2 := ⟨|a.num|, a.den⟩

end Q2

/-- The floor of `log2 q` for a positive fraction, computed from the bit
lengths of the numerator and denominator. -/
def qFloorLog2 (q : Q2) : Int :=
  let e : Int := (bitLen q.num.toNat : Int) - bitLen q.den
  if (Q2.mulPow2 ⟨1, 1⟩ e).ble q then e else e - 1

/-- Fuel-driven count of trailing zero bits. -/
def twoValFuel : Nat → Nat → Nat
  | 0, _ => 0
  | fuel + 1, n => if n % 2 = 0 ∧ n ≠ 0 then twoValFuel fuel (n / 2) + 1 else 0

def twoVal (n : Nat) : Nat := twoValFuel n n

/-- The canonical fraction denoting `m * 2 ^ e` (common powers of two
cancelled). -/
def dyadic (m e : Int) : Q2 :=
  if e ≥ 0 then ⟨m * 2 ^ e.toNat, 1⟩
  else
    let k := min (-e).toNat (twoVal m.natAbs)
    ⟨Int.tdiv m (2 ^ k), 2 ^ ((-e).toNat - k)⟩

/-- Round a positive-denominator fraction to `prec` bits of mantissa,
ties to even: the model of `big.Float` rounding with
`big.ToNearestEven`. -/
def roundPrec (prec : Nat) (q : Q2) : Q2 :=
  if q.num = 0 ∨ prec = 0 then ⟨0, 1⟩
  else
    let sgn : Int := if q.num < 0 then -1 else 1
    let a := q.abs
    let s : Int := (prec : Int) - 1 - qFloorLog2 a
    let x := a.mulPow2 s
    let fl := x.floor
    let twofr := 2 * x.num - 2 * fl * x.den
    let m : Int :=
      if twofr < x.den then fl
      else if twofr > x.den then fl + 1
      else if fl % 2 = 0 then fl else fl + 1
    dyadic (sgn * m) (-s)

/-- A `big.Float` value: a precision (mantissa bits) together with the
exact rational it denotes. -/
structure BigF where
  prec : Nat
  val : Q2
  deriving DecidableEq, Repr

def digitsToNat (l : List Char) : Nat :=
  l.foldl (fun acc c => acc * 10 + (c.toNat - '0'.toNat)) 0

/-- The exact value of a decimal literal `digits` or `digits.digits`. -/
def decValue (s : String) : Q2 :=
  let (ip, rest) := s.data.span Char.isDigit
  match rest with
  | '.' :: fps => ⟨(digitsToNat ip) * 10 ^ fps.length + digitsToNat fps, 10 ^ fps.length⟩
  | _ => ⟨digitsToNat ip, 1⟩

/-- The regex `^\d+(\.\d+)?` (`extractNum`): the leading decimal number
of the string, or `""` when the string does not begin with a digit. -/
def extractNum (s : String) : String :=
  let (ds, rest) := s.data.span Char.isDigit
  if ds.isEmpty then ""
  else
    match rest with
    | '.' :: r2 =>
        let fs := r2.takeWhile Char.isDigit
        if fs.isEmpty then ⟨ds⟩ else ⟨ds ++ '.' :: fs⟩
    | _ => ⟨ds⟩

/-- Drop a single leading sign character. -/
def stripSign (l : List Char) : List Char :=
  match l with
  | [] => []
  | c :: r => if c = '+' ∨ c = '-' then r else c :: r

/-- `big.Int.SetString(s, 10)` acceptance: an optional sign followed by
at least one decimal digit. -/
def isGoIntString (s : String) : Bool :=
  let body := stripSign s.data
  !body.isEmpty && body.all Char.isDigit

/-- The natural-number magnitude parsed by `big.Int.SetString(s, 10)`
(assuming `isGoIntString s`). -/
def goIntMagnitude (s : String) : Nat :=
  digitsToNat (stripSign s.data)

/-- `query.parseNumber` (src/unnamed/part_002): integers parse at a
precision of their own bit length, everything else parses the leading
`\d+(\.\d+)?` extraction at 125 bits of mantissa; a string with no
leading decimal yields a parse error (`none`). -/
def parseNumber (s : String) : Option BigF :=
  if isGoIntString s then
    let p := bitLen (goIntMagnitude s)
    let e := extractNum s
    if e = "" then none else some ⟨p, roundPrec p (decValue e)⟩
  else
    let e := extractNum s
    if e = "" then none else some ⟨125, roundPrec 125 (decValue e)⟩

/-- Operators of the query grammar (`syntax.Token`, restricted to the
operator tokens). -/
inductive QOp where
  | tEq | tLt | tLeq | tGt | tGeq | tContains | tExists
  deriving DecidableEq, Repr

/-- Modelled from the spec: a condition argument of the `syntax` package
(absent from `src/`): a quoted string, a numeric literal, or absent
(existence checks carry no argument); `Value()` is the raw text,
`Number()` the exact rational value of a numeric literal.  Date and
time arguments are not modelled (no claim involves them). -/
inductive QArg where
  | str (s : String)
  | num (s : String)
  | nil
  deriving DecidableEq, Repr

def QArg.value : QArg → String
  | .str s => s
  | .num s => s
  | .nil => ""

/-- Modelled from the spec: `Arg.Number()` — the rational denoted by the
numeric literal. -/
def QArg.number : QArg → Option Q2
  | .num s => some (decValue s)
  | _ => none

/-- A condition of the query AST (`syntax.Condition`). -/
structure Condition where
  tag : String
  op : QOp
  arg : QArg
  deriving DecidableEq, Repr

/-- The per-value matcher compiled for an operator/argument pair
(`opTypeMap` plus the `TExists` case of `compileCondition` in
src/unnamed/part_002).  Combinations rejected by `compileCondition`
evaluate to `false` (they can never reach a matcher). -/
def evalCondMatch (op : QOp) (arg : QArg) (s : String) : Bool :=
  match op, arg with
  | .tExists, _ => true
  | .tContains, .str v => decide (v.data <:+: s.data)
  | .tEq, .str v => s == v
  | .tEq, .num l =>
      match parseNumber s, decValue l with
      | some w, v => w.val.beq v
      | none, _ => false
  | .tLt, .num l =>
      match parseNumber s, decValue l with
      | some w, v => w.val.blt v
      | none, _ => false
  | .tLeq, .num l =>
      match parseNumber s, decValue l with
      | some w, v => w.val.ble v
      | none, _ => false
  | .tGt, .num l =>
      match parseNumber s, decValue l with
      | some w, v => v.blt w.val
      | none, _ => false
  | .tGeq, .num l =>
      match parseNumber s, decValue l with
      | some w, v => v.ble w.val
      | none, _ => false
  | _, _ => false

/-- The compiled `query.Query`: its AST of conditions (the compiled
matchers are determined by `evalCondMatch`). -/
structure Query where
  ast : List Condition
  deriving DecidableEq, Repr

/-- `condition.findAttr`: the attribute values of the event matching the
condition tag, plus whether the event type equals the tag exactly. -/
def findAttr (tag : String) (ev : Event) : List String × Bool :=
  if !(ev.type.data.isPrefixOf tag.data) then ([], false)
  else if tag.length = ev.type.length then ([], true)
  else
    ((ev.attributes.filter fun a => ev.type ++ "." ++ a.key == tag).map
      EventAttribute.value, false)

/-- `condition.matchesEvent`. -/
def condMatchesEvent (c : Condition) (ev : Event) : Bool :=
  let (vs, tagEqualsType) := findAttr c.tag ev
  match vs with
  | [] => if tagEqualsType then evalCondMatch c.op c.arg "" else false
  | _ => vs.any (evalCondMatch c.op c.arg)

/-- `condition.matchesAny`. -/
def condMatchesAny (c : Condition) (events : List Event) : Bool :=
  events.any (condMatchesEvent c)

/-- `Query.matchesEvents`: every condition matches some event, and the
event list is non-empty. -/
def Query.matchesEvents (q : Query) (events : List Event) : Bool :=
  q.ast.all (fun c => condMatchesAny c events) && events.length != 0

/-- `query.ExpandEvents`: turn a flattened `compositeKey → values` map
into a list of events (the map is modelled as an association list). -/
def ExpandEvents (flattened : List (String × List String)) : List Event :=
  flattened.map fun (composite, values) =>
    let tokens := composite.splitOn "."
    { type := String.intercalate "." (tokens.dropLast)
      attributes := values.map fun v =>
        { key := tokens.getLastD "", value := v, index := false } }

/-- `Query.Matches`: a nil `*Query` matches everything, otherwise match
the expanded events.  (The `error` component of the Go signature is
always nil.) -/
def QueryMatches (q : Option Query) (events : List (String × List String)) : Bool :=
  match q with
  | none => true
  | some q => q.matchesEvents (ExpandEvents events)

/-! ### The kv block indexer (`BlockerIndexer`, src/state/txindex) -/

/-- `types.BlockHeightKey`: the reserved composite key. -/
def blockHeightKey : String := "block.height"

/-- A segment of an `orderedcode` key: an int64 or a string.  The
encoding is order-preserving and self-delimiting, so keys are modelled
as segment lists compared lexicographically (with integer segments
ordered before string segments; the stores built here never compare an
integer segment against a string segment in the same position). -/
inductive Seg where
  | i (n : Int)
  | s (v : String)
  deriving DecidableEq, Repr

/-- Segment order (see `Seg`). -/
def Seg.lt : Seg → Seg → Bool
  | .i a, .i b => a < b
  | .s a, .s b => strLt a b
  | .i _, .s _ => true
  | .s _, .i _ => false

/-- An `orderedcode` key: a list of segments. -/
abbrev IKey := List Seg

/-- Lexicographic key order. -/
def keyLt : IKey → IKey → Bool
  | [], [] => false
  | [], _ :: _ => true
  | _ :: _, [] => false
  | a :: as, b :: bs => if a = b then keyLt as bs else Seg.lt a b

/-- The KV store of the indexer: an ascending association list from keys
to values; values are the `int64ToBytes`-encoded heights, modelled as
the integers themselves. -/
abbrev IStore := List (IKey × Int)

/-- Set a key in the sorted store (inserting or overwriting). -/
def storeSet (k : IKey) (v : Int) : IStore → IStore
  | [] => [(k, v)]
  | (k', v') :: rest =>
      if k = k' then (k, v) :: rest
      else if keyLt k k' then (k, v) :: (k', v') :: rest
      else (k', v') :: storeSet k v rest

def storeHas (k : IKey) (st : IStore) : Bool :=
  st.any fun e => e.1 == k

/-- `dbm.IteratePrefix`: the store entries whose key extends the given
start key, in store (ascending) order. -/
def prefixIter (st : IStore) (startKey : IKey) : List (IKey × Int) :=
  st.filter fun e => startKey.isPrefixOf e.1

/-- A write batch: the ordered list of pending sets. -/
abbrev IBatch := List (IKey × Int)

def batchSet (b : IBatch) (k : IKey) (v : Int) : IBatch := b ++ [(k, v)]

/-- `batch.WriteSync`: apply the pending sets to the store. -/
def writeBatch (b : IBatch) (st : IStore) : IStore :=
  b.foldl (fun acc (kv : IKey × Int) => storeSet kv.1 kv.2 acc) st

/-- Modelled from the spec: the primary height key
`encode(block.height, height)` (§4.4; the helper itself is absent from
`src/`, its shape is fixed by the doc comment on `Index`). -/
def heightKey (height : Int) : IKey := [.s blockHeightKey, .i height]

/-- Modelled from the spec: an event key
`encode(compositeKey, value, height, eventSeq)` (§4.4; shape fixed by
the doc comment on `Index` and the call in `indexEvents`). -/
def eventKey (compositeKey value : String) (height eventSeq : Int) : IKey :=
  [.s compositeKey, .s value, .i height, .i eventSeq]

/-- Modelled from the spec: decode the height field of an event key. -/
def parseHeightFromEventKey (k : IKey) : Option Int :=
  match k with
  | [.s _, .s _, .i h, .i _] => some h
  | _ => none

/-- Modelled from the spec: decode the value field of an event key. -/
def parseValueFromEventKey (k : IKey) : Option String :=
  match k with
  | [.s _, .s v, .i _, .i _] => some v
  | _ => none

/-- Modelled from the spec: decode the event sequence of an event key
(failures are swallowed to 0 at the call site). -/
def parseEventSeqFromEventKey (k : IKey) : Option Int :=
  match k with
  | [.s _, .s _, .i _, .i seq] => some seq
  | _ => none

/-- Modelled from the spec: decode the height stored in a primary key,
rendered back to a string value. -/
def parseValueFromPrimaryKey (k : IKey) : Option String :=
  match k with
  | [.s _, .i h] => some (toString h)
  | _ => none

/-- The `EventDataNewBlockEvents` bundle passed to `Index`. -/
structure EventDataNewBlockEvents where
  height : Int
  events : List Event
  numTxs : Int
  deriving DecidableEq, Repr

/-- The block indexer: its KV store and the per-indexer monotonically
increasing event sequence. -/
structure BlockerIndexer where
  store : IStore
  eventSeq : Int
  deriving DecidableEq, Repr

/-- `BlockerIndexer.Has`: whether the primary key of `height` is
present. -/
def BlockerIndexer.has (idx : BlockerIndexer) (height : Int) : Bool :=
  storeHas (heightKey height) idx.store

/-- The attribute loop of `indexEvents` for one event. -/
def indexAttrs (batch : IBatch) (evType : String) (attrs : List EventAttribute)
    (height seq : Int) : Except String IBatch :=
  match attrs with
  | [] => .ok batch
  | attr :: rest =>
      if attr.key.length = 0 then indexAttrs batch evType rest height seq
      else
        let compositeKey := evType ++ "." ++ attr.key
        if compositeKey = blockHeightKey then
          .error ("event type and attribute key \"" ++ compositeKey ++
            "\" is reserved; please use a different key")
        else if attr.index then
          indexAttrs (batchSet batch (eventKey compositeKey attr.value height seq) height)
            evType rest height seq
        else indexAttrs batch evType rest height seq

/-- `BlockerIndexer.indexEvents`: walk the events, incrementing the event
sequence per event, skipping empty types and empty keys, rejecting the
reserved composite key, and batching a key per indexed attribute.
Returns the final event sequence alongside the batched writes or the
error. -/
def indexEvents (batch : IBatch) (events : List Event) (height seq : Int) :
    Except String IBatch × Int :=
  match events with
  | [] => (.ok batch, seq)
  | ev :: rest =>
      let seq := seq + 1
      if ev.type.length = 0 then indexEvents batch rest height seq
      else
        match indexAttrs batch ev.type ev.attributes height seq with
        | .ok batch' => indexEvents batch' rest height seq
        | .error e => (.error e, seq)

/-- `BlockerIndexer.Index`: batch the primary height key and the event
keys, and commit the batch only when every event indexed successfully;
on an error nothing reaches the store (the advanced event sequence,
which lives in memory, is retained either way). -/
def BlockerIndexer.index (idx : BlockerIndexer) (bh : EventDataNewBlockEvents) :
    BlockerIndexer × Option String :=
  let height := bh.height
  let batch : IBatch := batchSet [] (heightKey height) height
  match indexEvents batch bh.events height idx.eventSeq with
  | (.ok batch', seq') => (⟨writeBatch batch' idx.store, seq'⟩, none)
  | (.error e, seq') =>
      (⟨idx.store, seq'⟩, some ("failed to index FinalizeBlock events: " ++ e))

/-- A half-bound of a numeric query range: the bound value and whether it
is inclusive. -/
structure RBound where
  val : Q2
  incl : Bool
  deriving DecidableEq, Repr

/-- Modelled from the spec: `indexer.QueryRange` — the merged
lower/upper bounds of the range conditions on one tag (§4.4). -/
structure QueryRange where
  key : String
  lowerBound : Option RBound
  upperBound : Option RBound
  deriving DecidableEq, Repr

/-- `QueryRange.AnyBound`: the lower bound when present, else the upper
bound. -/
def QueryRange.anyBound (qr : QueryRange) : Option RBound :=
  match qr.lowerBound with
  | some b => some b
  | none => qr.upperBound

/-- Modelled from the spec: `idxutil.CheckBounds` — whether a value lies
within the (in)clusive bounds of the range. -/
def checkBounds (qr : QueryRange) (v : Q2) : Bool :=
  (match qr.lowerBound with
   | none => true
   | some b => if b.incl then b.val.ble v else b.val.blt v) &&
  (match qr.upperBound with
   | none => true
   | some b => if b.incl then v.ble b.val else v.blt b.val)

/-- Modelled from the spec: the height constraints extracted from a query
(`HeightInfo`): the height of a `block.height = h` condition, its index
among the deduplicated conditions, whether the query consists solely of
height equalities / solely of height ranges, and the height range. -/
structure HeightInfo where
  height : Int
  heightEqIdx : Option Nat
  onlyHeightRange : Bool
  onlyHeightEq : Bool
  heightRange : Option QueryRange
  deriving DecidableEq, Repr

def isRangeOp : QOp → Bool
  | .tLt | .tLeq | .tGt | .tGeq => true
  | _ => false

def isHeightEqCond (c : Condition) : Bool :=
  c.tag == blockHeightKey && c.op matches .tEq

/-- Modelled from the spec: `dedupHeight` — drop duplicated
`block.height = h` conditions (keeping the first), record the requested
height and the position of the kept equality, and whether the query is
only a height equality / only height ranges (§4.4 "Equality on
block.height short-circuits to a single Has(height) probe"). -/
def dedupHeight (conditions : List Condition) :
    List Condition × HeightInfo × Bool :=
  let keep := conditions.foldl
    (fun (acc : List Condition × Bool) c =>
      if isHeightEqCond c then
        if acc.2 then acc else (acc.1 ++ [c], true)
      else (acc.1 ++ [c], acc.2))
    ([], false)
  let deduped := keep.1
  let found := keep.2
  let height :=
    match conditions.find? isHeightEqCond with
    | some c => (match c.arg.number with | some q => q.floor | none => 0)
    | none => 0
  let heightEqIdx := deduped.findIdx? isHeightEqCond
  let onlyHeightEq := found && conditions.all isHeightEqCond
  let onlyHeightRange :=
    conditions.any (fun c => c.tag == blockHeightKey && isRangeOp c.op) &&
    conditions.all (fun c => c.tag == blockHeightKey && isRangeOp c.op)
  (deduped,
   { height := height, heightEqIdx := heightEqIdx, onlyHeightRange := onlyHeightRange
     onlyHeightEq := onlyHeightEq, heightRange := none },
   found)

/-- Fold one range condition into the query range for its tag. -/
def addBound (qr : QueryRange) (op : QOp) (v : Q2) : QueryRange :=
  match op with
  | .tLt => { qr with upperBound := some ⟨v, false⟩ }
  | .tLeq => { qr with upperBound := some ⟨v, true⟩ }
  | .tGt => { qr with lowerBound := some ⟨v, false⟩ }
  | .tGeq => { qr with lowerBound := some ⟨v, true⟩ }
  | _ => qr

/-- Modelled from the spec: `indexer.LookForRangesWithHeight` — group the
range conditions by tag into query ranges (in first-seen tag order),
remember their indexes, and single out the height range (§4.4). -/
def lookForRangesWithHeight (conditions : List Condition) :
    List QueryRange × List Nat × Option QueryRange :=
  let step := fun (acc : List QueryRange × List Nat) (ic : Nat × Condition) =>
    let (i, c) := ic
    if isRangeOp c.op then
      match c.arg.number with
      | some v =>
          let ranges :=
            if acc.1.any (fun qr => qr.key == c.tag) then
              acc.1.map fun qr => if qr.key == c.tag then addBound qr c.op v else qr
            else acc.1 ++ [addBound ⟨c.tag, none, none⟩ c.op v]
          (ranges, acc.2 ++ [i])
      | none => acc
    else acc
  let (ranges, idxs) :=
    conditions.enum.foldl step (([], []) : List QueryRange × List Nat)
  (ranges, idxs, ranges.find? fun qr => qr.key == blockHeightKey)

/-- Modelled from the spec: `checkHeightConditions` — a key height
matches when it equals the requested equality height (when one was
given) and lies within the height range (when one was given). -/
def checkHeightConditions (hi : HeightInfo) (keyHeight : Int) : Bool :=
  (if hi.height ≠ 0 then keyHeight == hi.height else true) &&
  (match hi.heightRange with
   | some qr => checkBounds qr (Q2.ofInt keyHeight)
   | none => true)

/-- The cancellation token: `ctx t` tells whether the token reports
cancelled at the `t`-th check performed by the search. -/
abbrev Ctx := Nat → Bool

/-- The filtered-heights map `map[string][]byte`: its Go string keys
`string(value) + itoa(eventSeq)` are modelled as `(value, eventSeq)`
pairs; kept as an ascending association list (standing in for Go's
unspecified map iteration order). -/
abbrev FMap := List ((Int × Int) × Int)

def fmKeyLt (a b : Int × Int) : Bool :=
  a.1 < b.1 || (a.1 == b.1 && a.2 < b.2)

def fmInsert (k : Int × Int) (v : Int) : FMap → FMap
  | [] => [(k, v)]
  | (k', v') :: rest =>
      if k = k' then (k, v) :: rest
      else if fmKeyLt k k' then (k, v) :: (k', v') :: rest
      else (k', v') :: fmInsert k v rest

def fmLookup (k : Int × Int) (m : FMap) : Option Int :=
  (m.find? fun e => e.1 == k).map Prod.snd

/-- `setTmpHeights`: store the iterator value under the
`(value, eventSeq)` key. -/
def setTmpHeights (tmp : FMap) (k : IKey) (v : Int) : FMap :=
  let eventSeq := (parseEventSeqFromEventKey k).getD 0
  fmInsert (v, eventSeq) v tmp

/-- Full-string decimal parse at a 125-bit mantissa: the
`big.ParseFloat(eventValue, 10, 125, ToNearestEven)` fallback of
`matchRange` (sign and decimal forms; exponent forms are not modelled,
no indexed value uses them). -/
def fullParseFloat125 (s : String) : Option Q2 :=
  let (sgn, body) : Int × List Char :=
    match s.data with
    | '+' :: r => (1, r)
    | '-' :: r => (-1, r)
    | r => (1, r)
  let (ip, rest) := body.span Char.isDigit
  let valid :=
    !ip.isEmpty &&
    (match rest with
     | [] => true
     | '.' :: fps => !fps.isEmpty && fps.all Char.isDigit
     | _ => false)
  if valid then
    let v := decValue ⟨body⟩
    some (roundPrec 125 ⟨sgn * v.num, v.den⟩)
  else none

/-- The intersection loop shared by `match` and `matchRange`: drop the
entries of `filtered` that `tmp` does not confirm, stopping early (and
keeping the unvisited remainder) when the token reports cancelled right
after a deletion. -/
def intersectLoop (ctx : Ctx) (t : Nat) (tmp : FMap) : FMap → FMap × Nat
  | [] => ([], t)
  | (k, v) :: rest =>
      match fmLookup k tmp with
      | some tv =>
          if tv = v then
            let (r, t') := intersectLoop ctx t tmp rest
            ((k, v) :: r, t')
          else if ctx t then (rest, t + 1)
          else intersectLoop ctx (t + 1) tmp rest
      | none =>
          if ctx t then (rest, t + 1)
          else intersectLoop ctx (t + 1) tmp rest

/-- The iterator loop of the `TEq` case of `match`: the token is checked
(`ctx.Err()`) after every stored entry. -/
def matchEqLoop (ctx : Ctx) (t : Nat) (hi : HeightInfo) (tmp : FMap) :
    List (IKey × Int) → FMap × Nat
  | [] => (tmp, t)
  | (k, v) :: rest =>
      match parseHeightFromEventKey k with
      | none => matchEqLoop ctx t hi tmp rest
      | some keyHeight =>
          if !checkHeightConditions hi keyHeight then matchEqLoop ctx t hi tmp rest
          else
            let tmp := setTmpHeights tmp k v
            if ctx t then (tmp, t + 1)
            else matchEqLoop ctx (t + 1) hi tmp rest

/-- The iterator loop of the `TExists` case of `match`. -/
def matchExistsLoop (ctx : Ctx) (t : Nat) (hi : HeightInfo) (tmp : FMap) :
    List (IKey × Int) → FMap × Nat
  | [] => (tmp, t)
  | (k, v) :: rest =>
      match parseHeightFromEventKey k with
      | none => matchExistsLoop ctx t hi tmp rest
      | some keyHeight =>
          if !checkHeightConditions hi keyHeight then matchExistsLoop ctx t hi tmp rest
          else
            let tmp := setTmpHeights tmp k v
            if ctx t then (tmp, t + 1)
            else matchExistsLoop ctx (t + 1) hi tmp rest

/-- The iterator loop of the `TContains` case of `match`; unlike the
other loops the token is checked also on entries whose value does not
contain the argument. -/
def matchContainsLoop (ctx : Ctx) (t : Nat) (hi : HeightInfo) (arg : String)
    (tmp : FMap) : List (IKey × Int) → FMap × Nat
  | [] => (tmp, t)
  | (k, v) :: rest =>
      match parseValueFromEventKey k with
      | none => matchContainsLoop ctx t hi arg tmp rest
      | some eventValue =>
          if decide (arg.data <:+: eventValue.data) then
            match parseHeightFromEventKey k with
            | none => matchContainsLoop ctx t hi arg tmp rest
            | some keyHeight =>
                if !checkHeightConditions hi keyHeight then
                  matchContainsLoop ctx t hi arg tmp rest
                else
                  let tmp := setTmpHeights tmp k v
                  if ctx t then (tmp, t + 1)
                  else matchContainsLoop ctx (t + 1) hi arg tmp rest
          else
            if ctx t then (tmp, t + 1)
            else matchContainsLoop ctx (t + 1) hi arg tmp rest

/-- `BlockerIndexer.match`: all heights matching one equality / exists /
contains condition from the given start key, intersected with the
already-filtered heights. -/
def matchCond (ctx : Ctx) (t : Nat) (store : IStore) (c : Condition)
    (startKeyBz : IKey) (filteredHeights : FMap) (firstRun : Bool)
    (hi : HeightInfo) : Except String (FMap × Nat) :=
  if !firstRun && filteredHeights.isEmpty then .ok (filteredHeights, t)
  else do
    let (tmpHeights, t) ←
      match c.op with
      | .tEq => .ok (matchEqLoop ctx t hi [] (prefixIter store startKeyBz))
      | .tExists => .ok (matchExistsLoop ctx t hi [] (prefixIter store [.s c.tag]))
      | .tContains =>
          .ok (matchContainsLoop ctx t hi c.arg.value [] (prefixIter store [.s c.tag]))
      | _ => .error "other operators should be handled already"
    if tmpHeights.isEmpty || firstRun then .ok (tmpHeights, t)
    else .ok (intersectLoop ctx t tmpHeights filteredHeights)

/-- The iterator loop of `matchRange`: parse each stored value as a big
integer or as a 125-bit float, apply the height constraints for event
keys, and keep the heights whose value lies within the bounds; the
token is checked at the bottom of every iteration that reaches it. -/
def matchRangeLoop (ctx : Ctx) (t : Nat) (qr : QueryRange) (hi : HeightInfo)
    (tmp : FMap) : List (IKey × Int) → FMap × Nat
  | [] => (tmp, t)
  | (k, v) :: rest =>
      let eventValue :=
        if qr.key == blockHeightKey then parseValueFromPrimaryKey k
        else parseValueFromEventKey k
      match eventValue with
      | none => matchRangeLoop ctx t qr hi tmp rest
      | some ev =>
          match qr.anyBound with
          | none =>
              if ctx t then (tmp, t + 1)
              else matchRangeLoop ctx (t + 1) qr hi tmp rest
          | some _ =>
              let parsed : Option Q2 :=
                if isGoIntString ev then
                  some ⟨(if ev.data.head? = some '-' then -1 else 1) *
                    (goIntMagnitude ev : Int), 1⟩
                else fullParseFloat125 ev
              match parsed with
              | none => matchRangeLoop ctx t qr hi tmp rest
              | some value =>
                  if qr.key != blockHeightKey then
                    match parseHeightFromEventKey k with
                    | none => matchRangeLoop ctx t qr hi tmp rest
                    | some keyHeight =>
                        if !checkHeightConditions hi keyHeight then
                          matchRangeLoop ctx t qr hi tmp rest
                        else
                          let tmp :=
                            if checkBounds qr value then setTmpHeights tmp k v else tmp
                          if ctx t then (tmp, t + 1)
                          else matchRangeLoop ctx (t + 1) qr hi tmp rest
                  else
                    let tmp :=
                      if checkBounds qr value then setTmpHeights tmp k v else tmp
                    if ctx t then (tmp, t + 1)
                    else matchRangeLoop ctx (t + 1) qr hi tmp rest

/-- `BlockerIndexer.matchRange`. -/
def matchRange (ctx : Ctx) (t : Nat) (store : IStore) (qr : QueryRange)
    (startKey : IKey) (filteredHeights : FMap) (firstRun : Bool)
    (hi : HeightInfo) : Except String (FMap × Nat) :=
  if !firstRun && filteredHeights.isEmpty then .ok (filteredHeights, t)
  else
    let (tmpHeights, t) := matchRangeLoop ctx t qr hi [] (prefixIter store startKey)
    if tmpHeights.isEmpty || firstRun then .ok (tmpHeights, t)
    else .ok (intersectLoop ctx t tmpHeights filteredHeights)

/-- The range-conditions loop of `Search`. -/
def searchRanges (ctx : Ctx) (t : Nat) (store : IStore) (hi : HeightInfo) :
    List QueryRange → FMap → Bool → Except String (FMap × Bool × Nat)
  | [], fh, heightsInit => .ok (fh, heightsInit, t)
  | qr :: rest, fh, heightsInit =>
      if qr.key == blockHeightKey && !hi.onlyHeightRange then
        searchRanges ctx t store hi rest fh heightsInit
      else do
        let pfx : IKey := [.s qr.key]
        if !heightsInit then
          let (fh', t') ← matchRange ctx t store qr pfx fh true hi
          if fh'.isEmpty then .ok (fh', true, t')
          else searchRanges ctx t' store hi rest fh' true
        else
          let (fh', t') ← matchRange ctx t store qr pfx fh false hi
          searchRanges ctx t' store hi rest fh' true

/-- The remaining-conditions loop of `Search`. -/
def searchConds (ctx : Ctx) (t : Nat) (store : IStore) (hi : HeightInfo)
    (skipIndexes : List Nat) :
    List (Nat × Condition) → FMap → Bool → Except String (FMap × Nat)
  | [], fh, _ => .ok (fh, t)
  | (i, c) :: rest, fh, heightsInit =>
      if skipIndexes.contains i then searchConds ctx t store hi skipIndexes rest fh heightsInit
      else do
        let startKey : IKey := [.s c.tag, .s c.arg.value]
        if !heightsInit then
          let (fh', t') ← matchCond ctx t store c startKey fh true hi
          if fh'.isEmpty then .ok (fh', t')
          else searchConds ctx t' store hi skipIndexes rest fh' true
        else
          let (fh', t') ← matchCond ctx t store c startKey fh false hi
          searchConds ctx t' store hi skipIndexes rest fh' true

/-- The final fetch loop of `Search`: confirm each candidate height with
a `Has` probe, deduplicate, and stop early (returning what has been
accumulated) when the token reports cancelled. -/
def searchFetch (idx : BlockerIndexer) (ctx : Ctx) (t : Nat)
    (seen : List Int) (results : List Int) : FMap → List Int × Nat
  | [] => (results, t)
  | (_, hBz) :: rest =>
      let h := hBz
      let (seen, results) :=
        if idx.has h && !seen.contains h then (h :: seen, results ++ [h])
        else (seen, results)
      if ctx t then (results, t + 1)
      else searchFetch idx ctx (t + 1) seen results rest

/-- `BlockerIndexer.Search`: short-circuit pure height-equality queries
to a `Has` probe, evaluate range conditions then the remaining
conditions intersecting on `(value, eventSeq)`, confirm and
deduplicate the candidate heights, and return them in ascending
order.  The token is consulted at entry, after iterator steps inside
the per-condition loops, and after each fetched result. -/
def BlockerIndexer.search (idx : BlockerIndexer) (ctx : Ctx) (q : Query) :
    Except String (List Int) :=
  let results : List Int := []
  if ctx 0 then .ok results
  else do
    let t : Nat := 1
    let (conditions, hi0, ok) := dedupHeight q.ast
    let (ranges, rangeIndexes, heightRange) := lookForRangesWithHeight conditions
    let hi : HeightInfo := { hi0 with heightRange := heightRange }
    if ok && hi.onlyHeightEq then
      if idx.has hi.height then .ok [hi.height] else .ok results
    else
      let skipIndexes :=
        (match hi.heightEqIdx with | some i => [i] | none => []) ++
        (if ranges.length > 0 then rangeIndexes else [])
      let (fh, heightsInit, t) ←
        if ranges.length > 0 then
          searchRanges ctx t idx.store hi ranges [] false
        else .ok (([] : FMap), false, t)
      let (fh, t) ← searchConds ctx t idx.store hi skipIndexes conditions.enum fh heightsInit
      let (results, _) := searchFetch idx ctx t [] [] fh
      .ok (insertionSort (fun a b => a ≤ b) results)

/-- Whether a result is an error. -/
def isErr {ε α : Type} : Except ε α → Bool
  | .error _ => true
  | .ok _ => false

/-! ### Decidability of result equality, and concrete fixtures used by
the witnesses below -/

instance {ε α : Type} [DecidableEq ε] [DecidableEq α] : DecidableEq (Except ε α) :=
  fun x y =>
  match x, y with
  | .ok a, .ok b =>
      if h : a = b then .isTrue (by rw [h])
      else .isFalse (by intro hc; cases hc; exact h rfl)
  | .error a, .error b =>
      if h : a = b then .isTrue (by rw [h])
      else .isFalse (by intro hc; cases hc; exact h rfl)
  | .ok _, .error _ => .isFalse (by intro hc; cases hc)
  | .error _, .ok _ => .isFalse (by intro hc; cases hc)

/-- Fixture: a two-validator genesis set (addresses 1 and 2, powers 10
and 5, fresh priorities). -/
def fixtureGenVals : ValidatorSet := ⟨[⟨1, 10, 0⟩, ⟨2, 5, 0⟩], none⟩

/-- Fixture: a genesis state over `fixtureGenVals`. -/
def fixtureGenesis : SMState :=
  { chainID := "test-chain", lastBlockHeight := 0, lastBlockID := ⟨0, 0⟩
    lastBlockTime := 0, validators := fixtureGenVals
    nextValidators := fixtureGenVals.incrementProposerPriority 1
    lastValidators := ⟨[], none⟩, lastHeightValidatorsChanged := 1
    consensusParams := ⟨22020096, 10000000⟩, lastHeightConsensusParamsChanged := 1
    lastResultsHash := .empty, appHash := [] }

/-- Fixture: the store after the genesis save. -/
def fixtureGenStore : Store := saveState fixtureGenesis emptyStore

/-- Fixture: an empty response bundle. -/
def emptyResponses : FinalizeBlockResponse := ⟨[], [], none, [], []⟩

/-- Fixture: a response bundle with two transaction results carrying
non-deterministic fields (mirroring `TestFinalizeBlockResponsesSaveLoad2`
case 1/2). -/
def fixtureResponses : FinalizeBlockResponse :=
  { txResults :=
      [{ code := 32, data := [72, 101], log := "Huh?", info := "", gasWanted := 0
         gasUsed := 0, events := [], codespace := "" },
       { code := 383, data := [], log := "", info := "ok", gasWanted := 5
         gasUsed := 3, events := [], codespace := "" }]
    validatorUpdates := [], consensusParamUpdates := none
    appHash := [1], events := [] }

/-- Fixture: an empty block indexer. -/
def fixtureIdx0 : BlockerIndexer := ⟨[], 0⟩

/-- Fixture: a block-event bundle at height 1 with one indexed attribute
`x.y = "v"`. -/
def fixtureBundle1 : EventDataNewBlockEvents :=
  ⟨1, [⟨"x", [⟨"y", "v", true⟩]⟩], 2⟩

/-- Fixture: the indexer after indexing `fixtureBundle1`. -/
def fixtureIdx1 : BlockerIndexer := (fixtureIdx0.index fixtureBundle1).1

/-- Fixture: a bundle whose event type and attribute key concatenate to
the reserved composite key `block.height`. -/
def fixtureReservedBundle : EventDataNewBlockEvents :=
  ⟨2, [⟨"block", [⟨"height", "2", true⟩]⟩], 0⟩

/-- Fixture: the single-condition query `x.y = "v"`. -/
def fixtureQuery1 : Query := ⟨[⟨"x.y", .tEq, .str "v"⟩]⟩

/-- Fixture: a token that reports cancelled from the second check on
(the search is cancelled while it is iterating). -/
def fixtureCtxLate : Ctx := fun t => decide (1 ≤ t)

/-! ### Theorems -/

/-! ### Helper lemmas for the proposer-priority arithmetic (C3) -/

theorem tmod_neg_left (a b : Int) : Int.tmod (-a) b = -Int.tmod a b := by
  rw [Int.tmod_def, Int.tmod_def, Int.neg_tdiv]
  ring

theorem mul_goDiv_ge (x r : Int) (hr : 1 ≤ r) : x - (r - 1) ≤ r * goDiv x r := by
  have h1 : r * Int.tdiv x r + Int.tmod x r = x := Int.tdiv_add_tmod x r
  have h2 : Int.tmod x r < r := Int.tmod_lt_of_pos x (by omega)
  simp only [goDiv]
  linarith

theorem goDiv_nonneg (x r : Int) (hx : 0 ≤ x) (hr : 0 ≤ r) : 0 ≤ goDiv x r :=
  Int.tdiv_nonneg hx hr

theorem goDiv_nonpos (x r : Int) (hx : x ≤ 0) (hr : 0 ≤ r) : goDiv x r ≤ 0 := by
  have h : goDiv x r = -Int.tdiv (-x) r := by
    simp only [goDiv]
    rw [show x = -(-x) by ring, Int.neg_tdiv]
    ring_nf
  rw [h]
  have := Int.tdiv_nonneg (show (0:Int) ≤ -x by omega) hr
  omega

theorem goDiv_le_neg_one (x r : Int) (hr : 1 ≤ r) (hx : x ≤ -r) : goDiv x r ≤ -1 := by
  have h1 : r * Int.tdiv x r + Int.tmod x r = x := Int.tdiv_add_tmod x r
  have h2 : Int.tmod (-x) r = -Int.tmod x r := tmod_neg_left x r
  have h3 : 0 ≤ Int.tmod (-x) r := Int.tmod_nonneg r (by omega)
  have h4 : Int.tmod (-x) r < r := Int.tmod_lt_of_pos (-x) (by omega)
  simp only [goDiv]
  by_contra hcon
  push_neg at hcon
  have hq : 0 ≤ Int.tdiv x r := by omega
  have : 0 ≤ r * Int.tdiv x r := mul_nonneg (by omega) hq
  linarith

theorem goDiv_le_self (x r : Int) (hx : 0 ≤ x) (hr : 1 ≤ r) : goDiv x r ≤ x := by
  simp only [goDiv]
  rw [Int.tdiv_eq_ediv hx (by omega)]
  exact Int.ediv_le_self r hx

theorem sum_map_goDiv_ge (l : List Int) (r : Int) (hr : 1 ≤ r) :
    l.sum - (r - 1) * l.length ≤ r * (l.map (fun x => goDiv x r)).sum := by
  induction l with
  | nil => simp
  | cons x xs ih =>
      simp only [List.map_cons, List.sum_cons, List.length_cons]
      have h := mul_goDiv_ge x r hr
      push_cast
      push_cast at ih
      nlinarith [ih, h]

theorem sum_le_neg_length (l : List Int) (h : ∀ x ∈ l, x ≤ -1) :
    l.sum ≤ -(l.length : Int) := by
  induction l with
  | nil => simp
  | cons x xs ih =>
      simp only [List.sum_cons, List.length_cons]
      have hx := h x (List.mem_cons_self x xs)
      have hxs := ih (fun y hy => h y (List.mem_cons_of_mem x hy))
      push_cast
      linarith

theorem length_le_sum (l : List Int) (h : ∀ x ∈ l, 1 ≤ x) :
    (l.length : Int) ≤ l.sum := by
  induction l with
  | nil => simp
  | cons x xs ih =>
      simp only [List.sum_cons, List.length_cons]
      have hx := h x (List.mem_cons_self x xs)
      have hxs := ih (fun y hy => h y (List.mem_cons_of_mem x hy))
      push_cast
      linarith

theorem sum_nonpos_of_all (l : List Int) (h : ∀ x ∈ l, x ≤ 0) : l.sum ≤ 0 := by
  induction l with
  | nil => simp
  | cons x xs ih =>
      simp only [List.sum_cons]
      have hx := h x (List.mem_cons_self x xs)
      have hxs := ih (fun y hy => h y (List.mem_cons_of_mem x hy))
      linarith

theorem all_zero_of_sum_nonneg (l : List Int) (hle : ∀ x ∈ l, x ≤ 0)
    (hs : 0 ≤ l.sum) : ∀ x ∈ l, x = 0 := by
  induction l with
  | nil => intro x hx; cases hx
  | cons y ys ih =>
      intro x hx
      simp only [List.sum_cons] at hs
      have hy := hle y (List.mem_cons_self y ys)
      have hys : ys.sum ≤ 0 := sum_nonpos_of_all ys (fun z hz => hle z (List.mem_cons_of_mem y hz))
      rcases List.mem_cons.1 hx with h | h
      · subst h; linarith
      · exact ih (fun z hz => hle z (List.mem_cons_of_mem y hz)) (by linarith) x h

theorem sum_eq_of_all_eq (l : List Int) (c : Int) (h : ∀ x ∈ l, x = c) :
    l.sum = l.length * c := by
  induction l with
  | nil => simp
  | cons x xs ih =>
      simp only [List.sum_cons, List.length_cons]
      rw [h x (List.mem_cons_self x xs), ih (fun y hy => h y (List.mem_cons_of_mem x hy))]
      push_cast
      ring

theorem sum_map_sub_const (l : List Int) (c : Int) :
    (l.map (fun x => x - c)).sum = l.sum - l.length * c := by
  induction l with
  | nil => simp
  | cons x xs ih =>
      simp only [List.map_cons, List.sum_cons, List.length_cons, ih]
      push_cast
      ring

theorem insertSorted_perm (le : α → α → Bool) (x : α) (l : List α) :
    (insertSorted le x l).Perm (x :: l) := by
  induction l with
  | nil => exact List.Perm.refl _
  | cons y ys ih =>
      simp only [insertSorted]
      by_cases h : le x y
      · simp only [if_pos h]
        exact List.Perm.refl _
      · simp only [if_neg h]
        exact (List.Perm.cons y ih).trans (List.Perm.swap x y ys)

theorem insertionSort_perm (le : α → α → Bool) (l : List α) :
    (insertionSort le l).Perm l := by
  induction l with
  | nil => exact List.Perm.refl _
  | cons x xs ih =>
      simp only [insertionSort, List.foldr_cons]
      exact (insertSorted_perm le x _).trans (List.Perm.cons x ih)

theorem filterMap_eq_map_of_forall (l : List α) (f : α → Option β) (g : α → β)
    (h : ∀ a ∈ l, f a = some (g a)) : l.filterMap f = l.map g := by
  induction l with
  | nil => rfl
  | cons x xs ih =>
      rw [List.filterMap_cons, h x (List.mem_cons_self x xs),
        ih (fun y hy => h y (List.mem_cons_of_mem x hy)), List.map_cons]

namespace ValidatorSet

theorem survivorOf_priority (changes : List VUpdate) (v : Validator) :
    (survivorOf changes v).priority = v.priority := by
  unfold survivorOf
  cases changes.find? (fun c => c.addr == v.addr) <;> rfl

theorem survivorOf_addr (changes : List VUpdate) (v : Validator) :
    (survivorOf changes v).addr = v.addr := by
  unfold survivorOf
  cases changes.find? (fun c => c.addr == v.addr) <;> rfl

theorem survivorOf_power_ge (changes : List VUpdate) (v : Validator)
    (h : ∀ c ∈ changes, v.addr = c.addr → v.power ≤ c.power) :
    v.power ≤ (survivorOf changes v).power := by
  unfold survivorOf
  cases hf : changes.find? (fun c => c.addr == v.addr) with
  | none => exact le_refl _
  | some c =>
      have hc : c ∈ changes := List.mem_of_find?_eq_some hf
      have hp := List.find?_some hf
      simp only [beq_iff_eq] at hp
      exact h c hc hp.symm

theorem survivors_eq_map (olds : List Validator) (changes : List VUpdate)
    (hcpw : ∀ c ∈ changes, 1 ≤ c.power) :
    (olds.filterMap fun v =>
      match changes.find? (fun c => c.addr == v.addr) with
      | none => some v
      | some c => if c.power = 0 then none else some { v with power := c.power })
    = olds.map (survivorOf changes) := by
  apply filterMap_eq_map_of_forall
  intro v _
  simp only [survivorOf]
  cases hf : changes.find? (fun c => c.addr == v.addr) with
  | none => rfl
  | some c =>
      have hc : c ∈ changes := List.mem_of_find?_eq_some hf
      have hne : ¬(c.power = 0) := by have := hcpw c hc; omega
      simp [hne]

theorem le_foldl_max (l : List Validator) (init : Int) :
    init ≤ l.foldl (fun acc w => max acc w.priority) init := by
  induction l generalizing init with
  | nil => exact le_refl _
  | cons v vsl ih =>
      exact le_trans (le_max_left init v.priority) (ih (max init v.priority))

theorem mem_le_foldl_max (l : List Validator) (init : Int) (v : Validator) (hv : v ∈ l) :
    v.priority ≤ l.foldl (fun acc w => max acc w.priority) init := by
  induction l generalizing init with
  | nil => cases hv
  | cons w ws ih =>
      rcases List.mem_cons.1 hv with h | h
      · subst h
        exact le_trans (le_max_right init v.priority) (le_foldl_max ws (max init v.priority))
      · exact ih (max init w.priority) h

theorem foldl_max_le (l : List Validator) (init b : Int) (hi : init ≤ b)
    (h : ∀ v ∈ l, v.priority ≤ b) :
    l.foldl (fun acc w => max acc w.priority) init ≤ b := by
  induction l generalizing init with
  | nil => exact hi
  | cons v vsl ih =>
      exact ih (max init v.priority) (max_le hi (h v (List.mem_cons_self v vsl)))
        (fun w hw => h w (List.mem_cons_of_mem v hw))

theorem foldl_min_le (l : List Validator) (init : Int) :
    l.foldl (fun acc w => min acc w.priority) init ≤ init := by
  induction l generalizing init with
  | nil => exact le_refl _
  | cons v vsl ih =>
      exact le_trans (ih (min init v.priority)) (min_le_left init v.priority)

theorem foldl_min_le_mem (l : List Validator) (init : Int) (v : Validator) (hv : v ∈ l) :
    l.foldl (fun acc w => min acc w.priority) init ≤ v.priority := by
  induction l generalizing init with
  | nil => cases hv
  | cons w ws ih =>
      rcases List.mem_cons.1 hv with h | h
      · subst h
        exact le_trans (foldl_min_le ws (min init v.priority))
          (min_le_right init v.priority)
      · exact ih (min init w.priority) h

theorem le_foldl_min (l : List Validator) (init b : Int) (hi : b ≤ init)
    (h : ∀ v ∈ l, b ≤ v.priority) :
    b ≤ l.foldl (fun acc w => min acc w.priority) init := by
  induction l generalizing init with
  | nil => exact hi
  | cons v vsl ih =>
      exact ih (min init v.priority) (le_min hi (h v (List.mem_cons_self v vsl)))
        (fun w hw => h w (List.mem_cons_of_mem v hw))

theorem mem_le_maxPriority (vs : ValidatorSet) (v : Validator) (hv : v ∈ vs.vals) :
    v.priority ≤ vs.maxPriority := by
  unfold maxPriority
  cases hvals : vs.vals with
  | nil => rw [hvals] at hv; cases hv
  | cons w ws =>
      rw [hvals] at hv
      rcases List.mem_cons.1 hv with h | h
      · subst h; exact le_foldl_max ws v.priority
      · exact mem_le_foldl_max ws w.priority v h

theorem maxPriority_le (vs : ValidatorSet) (b : Int) (hne : vs.vals ≠ [])
    (h : ∀ v ∈ vs.vals, v.priority ≤ b) : vs.maxPriority ≤ b := by
  unfold maxPriority
  cases hvals : vs.vals with
  | nil => exact absurd hvals hne
  | cons w ws =>
      rw [hvals] at h
      exact foldl_max_le ws w.priority b (h w (List.mem_cons_self w ws))
        (fun v hv => h v (List.mem_cons_of_mem w hv))

theorem minPriority_le_mem (vs : ValidatorSet) (v : Validator) (hv : v ∈ vs.vals) :
    vs.minPriority ≤ v.priority := by
  unfold minPriority
  cases hvals : vs.vals with
  | nil => rw [hvals] at hv; cases hv
  | cons w ws =>
      rw [hvals] at hv
      rcases List.mem_cons.1 hv with h | h
      · subst h; exact foldl_min_le ws v.priority
      · exact foldl_min_le_mem ws w.priority v h

theorem le_minPriority (vs : ValidatorSet) (b : Int) (hne : vs.vals ≠ [])
    (h : ∀ v ∈ vs.vals, b ≤ v.priority) : b ≤ vs.minPriority := by
  unfold minPriority
  cases hvals : vs.vals with
  | nil => exact absurd hvals hne
  | cons w ws =>
      rw [hvals] at h
      exact le_foldl_min ws w.priority b (h w (List.mem_cons_self w ws))
        (fun v hv => h v (List.mem_cons_of_mem w hv))

theorem beats_true_le {a b : Validator} (h : beats a b = true) :
    b.priority ≤ a.priority := by
  simp only [beats, Bool.or_eq_true, decide_eq_true_eq, Bool.and_eq_true,
    beq_iff_eq] at h
  rcases h with h | ⟨h, _⟩
  · exact le_of_lt h
  · exact le_of_eq h.symm

theorem beats_false_le {a b : Validator} (h : beats a b = false) :
    a.priority ≤ b.priority := by
  by_contra hcon
  push_neg at hcon
  have : beats a b = true := by
    simp only [beats, Bool.or_eq_true, decide_eq_true_eq]
    exact Or.inl hcon
  rw [this] at h
  exact Bool.noConfusion h

theorem findProposer_foldl (l : List Validator) (w p : Validator)
    (h : l.foldl (fun acc v =>
      match acc with
      | none => some v
      | some u => if beats v u then some v else some u) (some w) = some p) :
    (p = w ∨ p ∈ l) ∧ w.priority ≤ p.priority ∧ ∀ v ∈ l, v.priority ≤ p.priority := by
  induction l generalizing w with
  | nil =>
      simp only [List.foldl_nil, Option.some.injEq] at h
      exact ⟨Or.inl h.symm, le_of_eq (by rw [h]), fun v hv => absurd hv (List.not_mem_nil v)⟩
  | cons v vsl ih =>
      simp only [List.foldl_cons] at h
      by_cases hb : beats v w
      · rw [if_pos hb] at h
        obtain ⟨hmem, hle, hall⟩ := ih v h
        refine ⟨Or.inr ?_, le_trans (beats_true_le hb) hle, ?_⟩
        · rcases hmem with h1 | h1
          · exact h1 ▸ List.mem_cons_self v vsl
          · exact List.mem_cons_of_mem v h1
        · intro u hu
          rcases List.mem_cons.1 hu with h1 | h1
          · subst h1; exact hle
          · exact hall u h1
      · rw [if_neg hb] at h
        obtain ⟨hmem, hle, hall⟩ := ih w h
        refine ⟨?_, hle, ?_⟩
        · rcases hmem with h1 | h1
          · exact Or.inl h1
          · exact Or.inr (List.mem_cons_of_mem v h1)
        · intro u hu
          rcases List.mem_cons.1 hu with h1 | h1
          · subst h1
            exact le_trans (beats_false_le (Bool.of_not_eq_true hb)) hle
          · exact hall u h1

theorem findProposer_spec (vs : ValidatorSet) (p : Validator)
    (h : vs.findProposer = some p) :
    p ∈ vs.vals ∧ ∀ w ∈ vs.vals, w.priority ≤ p.priority := by
  unfold findProposer at h
  cases hvals : vs.vals with
  | nil => rw [hvals] at h; exact Option.noConfusion h
  | cons v vsl =>
      rw [hvals] at h
      simp only [List.foldl_cons] at h
      obtain ⟨hmem, _, hall⟩ := findProposer_foldl vsl v p h
      refine ⟨?_, ?_⟩
      · rcases hmem with h1 | h1
        · exact h1 ▸ List.mem_cons_self v vsl
        · exact List.mem_cons_of_mem v h1
      · intro w hw
        rcases List.mem_cons.1 hw with h1 | h1
        · rw [h1]
          rcases hmem with h2 | h2
          · exact le_of_eq (by rw [h2])
          · exact (findProposer_foldl vsl v p h).2.1
        · exact hall w h1


theorem applyChanges_perm (olds : List Validator) (changes : List VUpdate) (newPrio : Int)
    (hcpw : ∀ c ∈ changes, 1 ≤ c.power) :
    (applyChanges olds changes newPrio).Perm
      (olds.map (survivorOf changes) ++
        ((changes.filter fun c =>
            c.power ≠ 0 ∧ (olds.all fun v => v.addr ≠ c.addr)).map fun c =>
          { addr := c.addr, power := c.power, priority := newPrio })) := by
  simp only [applyChanges]
  rw [survivors_eq_map olds changes hcpw]
  exact insertionSort_perm _ _

theorem totalAfter_eq (olds : List Validator) (changes : List VUpdate)
    (hcpw : ∀ c ∈ changes, 1 ≤ c.power) :
    totalAfter olds changes =
      (olds.map (fun v => (survivorOf changes v).power)).sum +
      ((changes.filter fun c =>
          c.power ≠ 0 ∧ (olds.all fun v => v.addr ≠ c.addr)).map VUpdate.power).sum := by
  unfold totalAfter
  have hp := (applyChanges_perm olds changes 0 hcpw).map Validator.power
  rw [List.Perm.sum_eq hp, List.map_append, List.sum_append, List.map_map, List.map_map]
  rfl


end ValidatorSet


theorem log2fuel_eq (fuel n : Nat) (h : n ≤ fuel) : log2fuel fuel n = Nat.log2 n := by
  induction fuel generalizing n with
  | zero =>
      interval_cases n
      simp [log2fuel, Nat.log2]
  | succ f ih =>
      rw [log2fuel, Nat.log2]
      by_cases h2 : n < 2
      · rw [if_pos h2, if_neg (by omega)]
      · rw [if_neg h2, if_pos (by omega), ih _ (by omega)]

theorem natLog2_eq (n : Nat) : natLog2 n = Nat.log2 n := log2fuel_eq n n (Nat.le_refl n)

/-- C10, auxiliary: no condition is satisfiable without events, so
`matchesEvents` on no events is false. -/
theorem matchesEvents_nil (q : Query) : q.matchesEvents [] = false := by
  simp [Query.matchesEvents]

/-- **C10.** For every non-nil compiled `Query` — including a query with
zero conditions — `Matches` applied to an empty collection of events
returns `false`, while a nil `*Query` returns `true` for any input; so
only the nil query matches everything. -/
theorem claim_C10 :
    (∀ q : Query, QueryMatches (some q) [] = false) ∧
    (∀ events, QueryMatches none events = true) := by
  refine ⟨fun q => ?_, fun events => rfl⟩
  simp [QueryMatches, ExpandEvents, matchesEvents_nil]

/-- **C9.** `BlockerIndexer.Index` is atomic on error: all writes go into
one batch committed only after every event indexed successfully, so
when `Index` returns an error nothing is persisted — the store is
unchanged and every subsequent `Has` probe answers as before (in
particular a height that was absent still reports `false`). -/
theorem claim_C9 (idx : BlockerIndexer) (bh : EventDataNewBlockEvents) (e : String)
    (h : (idx.index bh).2 = some e) :
    (idx.index bh).1.store = idx.store ∧
    ∀ height, (idx.index bh).1.has height = idx.has height := by
  simp only [BlockerIndexer.index] at h ⊢
  cases hres : indexEvents (batchSet [] (heightKey bh.height) bh.height) bh.events
      bh.height idx.eventSeq with
  | mk ex seq =>
      cases ex with
      | ok b => rw [hres] at h; exact Option.noConfusion h
      | error msg => exact ⟨rfl, fun _ => rfl⟩

/-- C8, auxiliary: the attribute loop errors exactly when a non-empty
attribute key completes the reserved composite key. -/
theorem indexAttrs_err_iff (evType : String) (height : Int) :
    ∀ (attrs : List EventAttribute) (batch : IBatch) (seq : Int),
    isErr (indexAttrs batch evType attrs height seq) = true ↔
    ∃ attr ∈ attrs, attr.key.length ≠ 0 ∧
      evType ++ "." ++ attr.key = blockHeightKey := by
  intro attrs
  induction attrs with
  | nil => intro batch seq; simp [indexAttrs, isErr]
  | cons a rest ih =>
      intro batch seq
      simp only [indexAttrs]
      by_cases hk : a.key.length = 0
      · rw [if_pos hk, ih]
        constructor
        · rintro ⟨attr, hmem, hcond⟩; exact ⟨attr, List.mem_cons_of_mem a hmem, hcond⟩
        · rintro ⟨attr, hmem, hlen, hres⟩
          rcases List.mem_cons.mp hmem with heq | hmem'
          · exact absurd hk (heq ▸ hlen)
          · exact ⟨attr, hmem', hlen, hres⟩
      · rw [if_neg hk]
        by_cases hr : evType ++ "." ++ a.key = blockHeightKey
        · rw [if_pos hr]
          simp only [isErr, true_iff]
          exact ⟨a, List.mem_cons_self a rest, hk, hr⟩
        · rw [if_neg hr]
          have hrest : ∀ b : IBatch,
              isErr (indexAttrs b evType rest height seq) = true ↔
              ∃ attr ∈ rest, attr.key.length ≠ 0 ∧
                evType ++ "." ++ attr.key = blockHeightKey := fun b => ih b seq
          have hsplit : ∀ b : IBatch,
              isErr (indexAttrs b evType rest height seq) = true ↔
              ∃ attr ∈ a :: rest, attr.key.length ≠ 0 ∧
                evType ++ "." ++ attr.key = blockHeightKey := by
            intro b
            rw [hrest b]
            constructor
            · rintro ⟨attr, hmem, hcond⟩; exact ⟨attr, List.mem_cons_of_mem a hmem, hcond⟩
            · rintro ⟨attr, hmem, hlen, hres⟩
              rcases List.mem_cons.mp hmem with heq | hmem'
              · exact absurd (heq ▸ hr) (by simpa using hres)
              · exact ⟨attr, hmem', hlen, hres⟩
          by_cases hi : a.index
          · rw [if_pos hi]; exact hsplit _
          · rw [if_neg hi]; exact hsplit _

/-- C8, auxiliary: `indexEvents` errors exactly when an event with a
non-empty type holds a non-empty attribute key completing the reserved
composite key. -/
theorem indexEvents_err_iff (height : Int) :
    ∀ (events : List Event) (batch : IBatch) (seq : Int),
    isErr (indexEvents batch events height seq).1 = true ↔
    ∃ ev ∈ events, ev.type.length ≠ 0 ∧ ∃ attr ∈ ev.attributes,
      attr.key.length ≠ 0 ∧ ev.type ++ "." ++ attr.key = blockHeightKey := by
  intro events
  induction events with
  | nil => intro batch seq; simp [indexEvents, isErr]
  | cons ev rest ih =>
      intro batch seq
      simp only [indexEvents]
      by_cases ht : ev.type.length = 0
      · rw [if_pos ht, ih]
        constructor
        · rintro ⟨e, hmem, hcond⟩; exact ⟨e, List.mem_cons_of_mem ev hmem, hcond⟩
        · rintro ⟨e, hmem, hlen, hcond⟩
          rcases List.mem_cons.mp hmem with heq | hmem'
          · exact absurd ht (heq ▸ hlen)
          · exact ⟨e, hmem', hlen, hcond⟩
      · rw [if_neg ht]
        cases hattrs : indexAttrs batch ev.type ev.attributes height (seq + 1) with
        | ok b =>
            rw [ih]
            have hana : ¬ ∃ attr ∈ ev.attributes, attr.key.length ≠ 0 ∧
                ev.type ++ "." ++ attr.key = blockHeightKey := by
              rw [← indexAttrs_err_iff ev.type height ev.attributes batch (seq + 1)]
              rw [hattrs]
              simp [isErr]
            constructor
            · rintro ⟨e, hmem, hcond⟩; exact ⟨e, List.mem_cons_of_mem ev hmem, hcond⟩
            · rintro ⟨e, hmem, hlen, hcond⟩
              rcases List.mem_cons.mp hmem with heq | hmem'
              · subst heq; exact absurd hcond hana
              · exact ⟨e, hmem', hlen, hcond⟩
        | error msg =>
            simp only [isErr, true_iff]
            have : isErr (indexAttrs batch ev.type ev.attributes height (seq + 1)) = true := by
              rw [hattrs]; rfl
            rcases (indexAttrs_err_iff ev.type height ev.attributes batch (seq + 1)).mp this
              with ⟨attr, hmem, hlen, hres⟩
            exact ⟨ev, List.mem_cons_self ev rest, ht, attr, hmem, hlen, hres⟩

/-- C8, auxiliary: a type/key pair concatenating to the reserved key has
a non-empty type. -/
theorem reserved_type_ne_empty (t k : String)
    (h : t ++ "." ++ k = blockHeightKey) : t.length ≠ 0 := by
  intro hlen
  have ht : t.data = [] := by
    cases hd : t.data with
    | nil => rfl
    | cons c cs =>
        exfalso
        have hl : t.length = t.data.length := rfl
        rw [hl, hd] at hlen
        simp at hlen
  have hdata := congrArg String.data h
  rw [String.data_append, String.data_append, ht] at hdata
  simp only [List.nil_append] at hdata
  have hh := congrArg (fun l => l.head?) hdata
  simp [blockHeightKey] at hh

/-- C8, auxiliary: a type/key pair concatenating to the reserved key has
a non-empty key. -/
theorem reserved_key_ne_empty (t k : String)
    (h : t ++ "." ++ k = blockHeightKey) : k.length ≠ 0 := by
  intro hlen
  have hk : k.data = [] := by
    cases hd : k.data with
    | nil => rfl
    | cons c cs =>
        exfalso
        have : k.length = k.data.length := rfl
        rw [this, hd] at hlen
        simp at hlen
  have hdata := congrArg String.data h
  rw [String.data_append, String.data_append, hk] at hdata
  have hrev := congrArg List.reverse hdata
  simp only [List.append_nil, List.reverse_append] at hrev
  have hh := congrArg (fun l => l.head?) hrev
  simp [blockHeightKey] at hh

/-- **C8.** `BlockerIndexer.Index` returns an error exactly when some
event type and attribute key concatenate to the reserved composite key
`block.height`; bundles without such an attribute produce no error. -/
theorem claim_C8 (idx : BlockerIndexer) (bh : EventDataNewBlockEvents) :
    (idx.index bh).2.isSome = true ↔
    ∃ ev ∈ bh.events, ∃ attr ∈ ev.attributes,
      ev.type ++ "." ++ attr.key = blockHeightKey := by
  have hmain : (idx.index bh).2.isSome = true ↔
      isErr (indexEvents (batchSet [] (heightKey bh.height) bh.height) bh.events
        bh.height idx.eventSeq).1 = true := by
    simp only [BlockerIndexer.index]
    cases hres : indexEvents (batchSet [] (heightKey bh.height) bh.height) bh.events
        bh.height idx.eventSeq with
    | mk ex seq => cases ex <;> simp [isErr]
  rw [hmain, indexEvents_err_iff]
  constructor
  · rintro ⟨ev, hmem, _, attr, hamem, _, hres⟩
    exact ⟨ev, hmem, attr, hamem, hres⟩
  · rintro ⟨ev, hmem, attr, hamem, hres⟩
    exact ⟨ev, hmem, reserved_type_ne_empty _ _ hres, attr, hamem,
      reserved_key_ne_empty _ _ hres, hres⟩

/-- C8 witness: the reserved bundle is rejected while the plain bundle
is accepted. -/
theorem claim_C8_witness :
    (fixtureIdx1.index fixtureReservedBundle).2.isSome = true ∧
    (fixtureIdx0.index fixtureBundle1).2.isSome = false := by
  constructor
  · exact (claim_C8 fixtureIdx1 fixtureReservedBundle).mpr
      ⟨⟨"block", [⟨"height", "2", true⟩]⟩, by decide,
        ⟨"height", "2", true⟩, by decide, by decide⟩
  · by_contra hc
    rcases (claim_C8 fixtureIdx0 fixtureBundle1).mp (by revert hc; decide)
      with ⟨ev, hmem, attr, hamem, hres⟩
    have hev : ev = ⟨"x", [⟨"y", "v", true⟩]⟩ := by
      rcases List.mem_cons.mp hmem with h | h
      · exact h
      · cases h
    subst hev
    have hattr : attr = ⟨"y", "v", true⟩ := by
      rcases List.mem_cons.mp hamem with h | h
      · exact h
      · cases h
    subst hattr
    exact absurd hres (by decide)

/-- **C2.** A successful `UpdateState(prev, ...)` returns a state whose
`Validators` is exactly `prev.NextValidators`, and whose
`NextValidators` is obtained by applying the validator updates to (a
copy of) `prev.NextValidators` followed by exactly one proposer
priority increment; the quantification includes the empty update
list, for which the increment is still performed. -/
theorem claim_C2 (prev : SMState) (blockID : BlockID) (header : Header)
    (responses : FinalizeBlockResponse) (validatorUpdates : List VUpdate)
    (next : SMState)
    (h : updateState prev blockID header responses validatorUpdates = .ok next) :
    next.validators = prev.nextValidators ∧
    ∃ applied, prev.nextValidators.updateWithChangeSet validatorUpdates = .ok applied ∧
      next.nextValidators = applied.incrementProposerPriority 1 := by
  simp only [updateState] at h
  cases happ : prev.nextValidators.updateWithChangeSet validatorUpdates with
  | error e => rw [happ] at h; exact Except.noConfusion h
  | ok applied =>
      rw [happ] at h
      cases h
      exact ⟨rfl, applied, rfl, rfl⟩

/-- C2 witness: one transition of the fixture genesis with an empty
update list succeeds, rotates `NextValidators` into `Validators`, and
still increments (via `updateWithChangeSet []`). -/
theorem claim_C2_witness :
    ∃ next, updateState fixtureGenesis ⟨0, 0⟩ ⟨1, 0⟩ emptyResponses [] = .ok next ∧
      next.validators = fixtureGenesis.nextValidators ∧
      ∃ applied, fixtureGenesis.nextValidators.updateWithChangeSet [] = .ok applied ∧
        next.nextValidators = applied.incrementProposerPriority 1 := by
  cases hret : updateState fixtureGenesis ⟨0, 0⟩ ⟨1, 0⟩ emptyResponses [] with
  | error e =>
      have hne : isErr (updateState fixtureGenesis ⟨0, 0⟩ ⟨1, 0⟩ emptyResponses []) =
          false := by decide
      rw [hret] at hne
      exact Bool.noConfusion hne
  | ok next =>
      have h := claim_C2 fixtureGenesis ⟨0, 0⟩ ⟨1, 0⟩ emptyResponses [] next hret
      exact ⟨next, rfl, h.1, h.2⟩

/-- **C5.** The `LastResultsHash` of a successful state transition is the
merkle hash of the deterministic projections of `responses.TxResults`;
the projection keeps exactly `Code`, `Data`, `GasWanted`, `GasUsed`
and strips every other field; the empty list hashes to the
empty-merkle sentinel. -/
theorem claim_C5 (prev : SMState) (blockID : BlockID) (header : Header)
    (responses : FinalizeBlockResponse) (validatorUpdates : List VUpdate)
    (next : SMState)
    (h : updateState prev blockID header responses validatorUpdates = .ok next) :
    next.lastResultsHash =
      hashFromByteSlices (responses.txResults.map fun r =>
        Bytes.execTx (DeterministicExecTxResult r)) ∧
    (∀ r, (DeterministicExecTxResult r).code = r.code ∧
      (DeterministicExecTxResult r).data = r.data ∧
      (DeterministicExecTxResult r).gasWanted = r.gasWanted ∧
      (DeterministicExecTxResult r).gasUsed = r.gasUsed ∧
      (DeterministicExecTxResult r).log = "" ∧
      (DeterministicExecTxResult r).info = "" ∧
      (DeterministicExecTxResult r).events = [] ∧
      (DeterministicExecTxResult r).codespace = "") ∧
    TxResultsHash [] = HashV.empty := by
  refine ⟨?_, fun r => ⟨rfl, rfl, rfl, rfl, rfl, rfl, rfl, rfl⟩, rfl⟩
  simp only [updateState] at h
  cases happ : prev.nextValidators.updateWithChangeSet validatorUpdates with
  | error e => rw [happ] at h; exact Except.noConfusion h
  | ok applied =>
      rw [happ] at h
      cases h
      simp only [TxResultsHash, abciResultsHash, NewResults, List.map_map]
      rfl

/-- C5 witness: a transition carrying two tx results with
non-deterministic fields hashes exactly the stripped projections. -/
theorem claim_C5_witness :
    ∃ next, updateState fixtureGenesis ⟨0, 0⟩ ⟨1, 0⟩ fixtureResponses [] = .ok next ∧
      next.lastResultsHash =
        hashFromByteSlices (fixtureResponses.txResults.map fun r =>
          Bytes.execTx (DeterministicExecTxResult r)) := by
  cases hret : updateState fixtureGenesis ⟨0, 0⟩ ⟨1, 0⟩ fixtureResponses [] with
  | error e =>
      have hne : isErr (updateState fixtureGenesis ⟨0, 0⟩ ⟨1, 0⟩ fixtureResponses []) =
          false := by decide
      rw [hret] at hne
      exact Bool.noConfusion hne
  | ok next =>
      have h := claim_C5 fixtureGenesis ⟨0, 0⟩ ⟨1, 0⟩ fixtureResponses [] next hret
      exact ⟨next, rfl, h.1⟩

/-- C6 counterexample: the claim says that whenever the token is
cancelled during the search the partial results are discarded and the
empty slice is returned.  Index height 1 under `x.y = "v"` and search
for it with a token that reports cancelled from the second check on
(the first check, at entry, is not yet cancelled; the cancellation is
observed while iterating inside `match` and again in the fetch loop):
`Search` stops early but returns the accumulated `[1]`, not the empty
slice. -/
theorem claim_C6_counterexample :
    fixtureIdx1.search fixtureCtxLate fixtureQuery1 = .ok [1] ∧
    fixtureCtxLate 0 = false ∧ fixtureCtxLate 1 = true ∧
    ([1] : List Int) ≠ [] := by decide

/-- **C6 (amended).** `Search` consults its cancellation token at entry,
after each iterator step inside the per-condition scans, and after
each fetched result — but not between conditions; when the token is
cancelled the search stops early and returns the results accumulated
so far, which is the empty slice when the token is already cancelled
at entry (mid-search cancellation can return a non-empty partial
slice, as the counterexample shows). -/
theorem claim_C6 (ctx : Ctx) (idx : BlockerIndexer) (q : Query)
    (h : ctx 0 = true) : idx.search ctx q = .ok [] := by
  simp only [BlockerIndexer.search, h, if_true]

/-- C6 witness: a token cancelled from the start makes the fixture
search return the empty slice. -/
theorem claim_C6_witness : fixtureIdx1.search (fun _ => true) fixtureQuery1 = .ok [] :=
  claim_C6 (fun _ => true) fixtureIdx1 fixtureQuery1 rfl

/-- C7, auxiliary: a natural number rounds to itself at a precision of
its own bit length (rounding at `BitLen` is exact). -/
theorem roundPrec_nat_exact (n : Nat) :
    roundPrec (bitLen n) ⟨(n : Int), 1⟩ = ⟨(n : Int), 1⟩ := by
  rcases Nat.eq_zero_or_pos n with h0 | hpos
  · subst h0; rfl
  · have hne : (n : Int) ≠ 0 := by exact_mod_cast Nat.pos_iff_ne_zero.mp hpos
    have hbit : bitLen n = natLog2 n + 1 := by unfold bitLen; rw [if_neg (by omega)]
    have hlog_le : 2 ^ natLog2 n ≤ n := by
      rw [natLog2_eq]; exact Nat.log2_self_le (by omega)
    have hq : qFloorLog2 ⟨(n : Int), 1⟩ = (natLog2 n : Int) := by
      show (if (Q2.mulPow2 ⟨1, 1⟩ ((bitLen (Int.toNat (n : Int)) : Int) - bitLen 1)).ble
            ⟨(n : Int), 1⟩
        then (bitLen (Int.toNat (n : Int)) : Int) - bitLen 1
        else (bitLen (Int.toNat (n : Int)) : Int) - bitLen 1 - 1) = (natLog2 n : Int)
      have ht : Int.toNat (n : Int) = n := Int.toNat_natCast n
      have hb1 : bitLen 1 = 1 := rfl
      rw [ht, hbit, hb1]
      have he : ((natLog2 n + 1 : Nat) : Int) - (1 : Nat) = (natLog2 n : Int) := by
        push_cast; ring
      rw [he]
      have hcond : (Q2.mulPow2 ⟨1, 1⟩ (natLog2 n : Int)).ble ⟨(n : Int), 1⟩ = true := by
        unfold Q2.mulPow2 Q2.ble
        rw [if_pos (by positivity)]
        simp only
        push_cast
        have hle : (2 : Int) ^ natLog2 n ≤ (n : Int) := by exact_mod_cast hlog_le
        simpa using hle
      rw [hcond]
      simp
    unfold roundPrec
    rw [if_neg (by push_neg; exact ⟨hne, by omega⟩)]
    have hsgn : ((if (⟨(n : Int), 1⟩ : Q2).num < 0 then (-1 : Int) else 1)) = 1 := by
      rw [if_neg (by simp)]
    have habs : (⟨(n : Int), 1⟩ : Q2).abs = ⟨(n : Int), 1⟩ := by
      unfold Q2.abs
      simp
    have hs0 : ((bitLen n : Nat) : Int) - 1 - (natLog2 n : Int) = 0 := by
      rw [hbit]; push_cast; ring
    have hx : (⟨(n : Int), 1⟩ : Q2).mulPow2 0 = ⟨(n : Int) * 1, 1⟩ := by
      unfold Q2.mulPow2
      rw [if_pos le_rfl]
      norm_num
    have hfl : (⟨(n : Int) * 1, 1⟩ : Q2).floor = (n : Int) * 1 := by
      unfold Q2.floor
      simp [Int.fdiv_one]
    simp only [habs, hsgn, hq, hs0, hx, hfl]
    have htf : 2 * ((n : Int) * 1) - 2 * ((n : Int) * 1) * ((1 : Nat) : Int) = 0 := by
      push_cast; ring
    rw [htf]
    rw [if_pos (by norm_num)]
    unfold dyadic
    rw [if_pos (by norm_num)]
    norm_num

/-- C7, auxiliary: a decimal digit is not a sign character. -/
theorem digit_ne_sign (c : Char) (h : c.isDigit = true) : ¬(c = '+' ∨ c = '-') := by
  rintro (rfl | rfl) <;> exact Bool.noConfusion h

/-- C7, auxiliary: `parseNumber` on a pure digit string takes the
`big.Int` path and parses exactly, with a mantissa of the integer's
full bit length. -/
theorem parseNumber_digits (s : String) (hne : s.data ≠ [])
    (hdig : s.data.all Char.isDigit = true) :
    parseNumber s =
      some ⟨bitLen (digitsToNat s.data), ⟨(digitsToNat s.data : Int), 1⟩⟩ := by
  have hall : ∀ c ∈ s.data, c.isDigit = true := by
    intro c hc; exact List.all_eq_true.mp hdig c hc
  have hstrip : stripSign s.data = s.data := by
    cases hd : s.data with
    | nil => rfl
    | cons c r =>
        show (if c = '+' ∨ c = '-' then r else c :: r) = c :: r
        rw [if_neg (digit_ne_sign c (hall c (by rw [hd]; exact List.mem_cons_self c r)))]
  have hint : isGoIntString s = true := by
    unfold isGoIntString
    rw [hstrip]
    simp only [Bool.and_eq_true, Bool.not_eq_true']
    constructor
    · cases hd : s.data with
      | nil => exact absurd hd hne
      | cons c r => rfl
    · exact hdig
  have hspan : s.data.span Char.isDigit = (s.data, []) := by
    rw [List.span_eq_take_drop]
    rw [List.takeWhile_eq_self_iff.mpr hall, List.dropWhile_eq_nil_iff.mpr hall]
  have hie : s.data.isEmpty = false := by
    cases hd : s.data with
    | nil => exact absurd hd hne
    | cons c r => rfl
  have hextract : extractNum s = s := by
    unfold extractNum
    rw [hspan]
    show (if (s.data.isEmpty : Bool) = true then "" else String.mk s.data) = s
    rw [hie]
    rfl
  have hdv : decValue s = ⟨(digitsToNat s.data : Int), 1⟩ := by
    unfold decValue
    rw [hspan]
  have hsne : s ≠ "" := by
    intro hc
    rw [hc] at hne
    exact hne rfl
  have hmag : goIntMagnitude s = digitsToNat s.data := by
    unfold goIntMagnitude
    rw [hstrip]
  unfold parseNumber
  simp only [hint, eq_self_iff_true, if_true, hextract, hmag, hdv]
  rw [if_neg hsne, roundPrec_nat_exact]

/-- C7 counterexample: the claim says every numeric comparison is
carried out with a mantissa of at most 125 bits, but a pure-integer
attribute value is parsed at its own bit length — the decimal string
of `2^125` parses with a 126-bit mantissa (and the comparison against
the same query literal succeeds on that value). -/
theorem claim_C7_counterexample :
    parseNumber "42535295865117307932921825928971026432" =
      some ⟨126, ⟨2 ^ 125, 1⟩⟩ ∧
    evalCondMatch .tEq (.num "42535295865117307932921825928971026432")
      "42535295865117307932921825928971026432" = true ∧
    ¬(126 ≤ 125) := by decide

/-- **C7 (amended).** Numeric comparisons in the query package parse the
attribute value by first extracting a leading `\d+(\.\d+)?` decimal,
so trailing units are tolerated (`"8atom"` compares equal to the query
number `8`); values that are not pure decimal integers are rounded to
a 125-bit mantissa, while pure decimal integers are parsed exactly
with a mantissa equal to their own bit length, which may exceed 125
bits. -/
theorem claim_C7 :
    evalCondMatch .tEq (.num "8") "8atom" = true ∧
    (∀ s : String, s.data ≠ [] → s.data.all Char.isDigit = true →
      parseNumber s =
        some ⟨bitLen (digitsToNat s.data), ⟨(digitsToNat s.data : Int), 1⟩⟩) ∧
    parseNumber "6.5stake" = some ⟨125, ⟨13, 2⟩⟩ :=
  ⟨by decide, parseNumber_digits, by decide⟩

/-- C7 witness: the exact-integer path of the amended claim evaluated at
the concrete string `"8"`. -/
theorem claim_C7_witness : parseNumber "8" = some ⟨4, ⟨8, 1⟩⟩ :=
  (claim_C7.2.1 "8" (by decide) (by decide)).trans (by decide)

/-- C9 witness: indexing a bundle carrying the reserved composite key
errors out, and the store and the `Has` view of its height are exactly
as before (the height remains unindexed). -/
theorem claim_C9_witness :
    (fixtureIdx1.index fixtureReservedBundle).1.store = fixtureIdx1.store ∧
    (fixtureIdx1.index fixtureReservedBundle).1.has 2 = fixtureIdx1.has 2 ∧
    fixtureIdx1.has 2 = false := by
  have h := claim_C9 fixtureIdx1 fixtureReservedBundle
    ("failed to index FinalizeBlock events: event type and attribute key \"" ++
      blockHeightKey ++ "\" is reserved; please use a different key")
    (by decide)
  exact ⟨h.1, h.2 2, by decide⟩


/-- C3 counterexample: the old set satisfies every documented invariant
(positive powers, centered priorities, spread within the `2T` window),
yet removing the heavyweight validator while adding a newcomer leaves
total power `T' = 2`, so the newcomer enters at `-(2 + 2/8) = -2`;
rescale divides by 250 and centering then lifts the newcomer to `+2`,
which is positive — and the newcomer is the proposer of the very round
in which it is added. -/
theorem claim_C3_counterexample :
    (([⟨0, 1, -1000⟩, ⟨1, 999, 1000⟩] : List Validator).all fun v => 1 ≤ v.power) = true ∧
    (([⟨0, 1, -1000⟩, ⟨1, 999, 1000⟩] : List Validator).map Validator.priority).sum = 0 ∧
    ValidatorSet.priorityDiff ⟨[⟨0, 1, -1000⟩, ⟨1, 999, 1000⟩], none⟩ =
      2 * ValidatorSet.totalVotingPower ⟨[⟨0, 1, -1000⟩, ⟨1, 999, 1000⟩], none⟩ ∧
    ValidatorSet.updateWithChangeSet ⟨[⟨0, 1, -1000⟩, ⟨1, 999, 1000⟩], none⟩
      [⟨1, 0⟩, ⟨2, 1⟩] = .ok ⟨[⟨0, 1, -2⟩, ⟨2, 1, 2⟩], none⟩ ∧
    (∀ w ∈ ([⟨0, 1, -2⟩, ⟨2, 1, 2⟩] : List Validator), w.addr = 2 → 0 < w.priority) ∧
    ValidatorSet.findProposer ⟨[⟨0, 1, -2⟩, ⟨2, 1, 2⟩], none⟩ = some ⟨2, 1, 2⟩ := by
  decide

open ValidatorSet in
/-- **C3 (amended).** Joining validators do enter `UpdateWithChangeSet`
with raw priority `-(T' + T'/8)` (`T'` the post-update total).  The
"never positive / never proposer at the step it is added" half is
false in general (see the counterexample: removals or power cuts can
shrink `T'`), but it holds whenever no validator is removed and no
surviving validator's power is reduced: then every newcomer ends the
update with priority ≤ 0 and is strictly beaten by the proposer. -/
theorem claim_C3 (vs : ValidatorSet) (changes : List VUpdate) (vs' : ValidatorSet) (a : Nat)
    (hne : vs.vals ≠ [])
    (hpw : ∀ v ∈ vs.vals, 1 ≤ v.power)
    (hcent : |(vs.vals.map Validator.priority).sum| ≤ (vs.vals.length : Int) - 1)
    (hspread : vs.priorityDiff ≤ 2 * vs.totalVotingPower)
    (hcpw : ∀ c ∈ changes, 1 ≤ c.power)
    (hnodec : ∀ c ∈ changes, ∀ v ∈ vs.vals, v.addr = c.addr → v.power ≤ c.power)
    (ha : ∃ c ∈ changes, c.addr = a)
    (hnew : ∀ v ∈ vs.vals, v.addr ≠ a)
    (hok : vs.updateWithChangeSet changes = .ok vs') :
    (∀ w ∈ applyChanges vs.vals changes
        (-(totalAfter vs.vals changes + goDiv (totalAfter vs.vals changes) 8)),
      w.addr = a →
        w.priority = -(totalAfter vs.vals changes + goDiv (totalAfter vs.vals changes) 8)) ∧
    ∀ w ∈ vs'.vals, w.addr = a →
      w.priority ≤ 0 ∧ ∀ p, vs'.findProposer = some p → w.priority < p.priority := by
  simp only [updateWithChangeSet] at hok
  split at hok
  · exact Except.noConfusion hok
  split at hok
  · exact Except.noConfusion hok
  split at hok
  · exact Except.noConfusion hok
  next hover hempty =>
  injection hok with hinj
  subst hinj
  set T := totalAfter vs.vals changes with hT
  set c0 : Int := -(T + goDiv T 8) with hc0
  set applied := applyChanges vs.vals changes c0 with happlied
  -- basic sizes
  have hm1 : 0 < vs.vals.length := List.length_pos.2 hne
  have hmZ : (1 : Int) ≤ (vs.vals.length : Int) := by exact_mod_cast hm1
  have hTold : (vs.vals.length : Int) ≤ vs.totalVotingPower := by
    unfold totalVotingPower
    have h := length_le_sum (vs.vals.map Validator.power) (by
      intro x hx
      obtain ⟨v, hv, rfl⟩ := List.mem_map.1 hx
      exact hpw v hv)
    rwa [List.length_map] at h
  rw [abs_le] at hcent
  obtain ⟨hcentL, hcentR⟩ := hcent
  -- survivors / newcomers decomposition
  set LS := vs.vals.map (survivorOf changes) with hLS
  set LN := ((changes.filter fun c =>
      c.power ≠ 0 ∧ (vs.vals.all fun v => v.addr ≠ c.addr)).map fun c =>
    ({ addr := c.addr, power := c.power, priority := c0 } : Validator)) with hLN
  have hperm : applied.Perm (LS ++ LN) := by
    rw [happlied, hLS, hLN]
    exact applyChanges_perm vs.vals changes c0 hcpw
  -- the newcomer membership
  obtain ⟨ca, hca_mem, hca_addr⟩ := ha
  have hca_filter : ca ∈ changes.filter (fun c =>
      c.power ≠ 0 ∧ (vs.vals.all fun v => v.addr ≠ c.addr)) := by
    rw [List.mem_filter]
    refine ⟨hca_mem, ?_⟩
    simp only [decide_eq_true_eq, List.all_eq_true]
    refine ⟨by have := hcpw ca hca_mem; omega, ?_⟩
    intro v hv
    subst hca_addr
    simpa using hnew v hv
  have hkmem : ({ addr := ca.addr, power := ca.power, priority := c0 } : Validator) ∈ LN := by
    rw [hLN]
    exact List.mem_map_of_mem _ hca_filter
  have hk1 : 1 ≤ LN.length := List.length_pos.2 (List.ne_nil_of_mem hkmem)
  have hk1Z : (1 : Int) ≤ (LN.length : Int) := by exact_mod_cast hk1
  -- total power bounds
  have hTdef : T = (vs.vals.map (fun v => (survivorOf changes v).power)).sum +
      ((changes.filter fun c =>
        c.power ≠ 0 ∧ (vs.vals.all fun v => v.addr ≠ c.addr)).map VUpdate.power).sum := by
    rw [hT]
    exact totalAfter_eq vs.vals changes hcpw
  have hLSpow : (vs.vals.map Validator.power).sum ≤
      (vs.vals.map (fun v => (survivorOf changes v).power)).sum := by
    apply List.sum_le_sum
    intro v hv
    exact survivorOf_power_ge changes v (fun c hc hac => hnodec c hc v hv hac)
  have hLNpow : (LN.length : Int) ≤
      ((changes.filter fun c =>
        c.power ≠ 0 ∧ (vs.vals.all fun v => v.addr ≠ c.addr)).map VUpdate.power).sum := by
    have hlen : LN.length = ((changes.filter fun c =>
        c.power ≠ 0 ∧ (vs.vals.all fun v => v.addr ≠ c.addr)).map VUpdate.power).length := by
      rw [hLN, List.length_map, List.length_map]
    rw [hlen]
    apply length_le_sum
    intro x hx
    obtain ⟨c, hc, rfl⟩ := List.mem_map.1 hx
    exact hcpw c (List.mem_of_mem_filter hc)
  have hT2 : vs.totalVotingPower + (LN.length : Int) ≤ T := by
    unfold totalVotingPower
    rw [hTdef]
    linarith
  have hTpos : 2 ≤ T := by linarith
  -- newcomer priority bounds
  have hdiv8a : 0 ≤ goDiv T 8 := goDiv_nonneg T 8 (by omega) (by omega)
  have hdiv8b : goDiv T 8 ≤ T := goDiv_le_self T 8 (by omega) (by omega)
  have hc0a : c0 ≤ -T := by rw [hc0]; omega
  have hc0b : -(2 * T) ≤ c0 := by rw [hc0]; omega
  -- old-set max/min facts
  have hexpos : ∃ v ∈ vs.vals, 0 ≤ v.priority := by
    by_contra hcon
    push_neg at hcon
    have h := sum_le_neg_length (vs.vals.map Validator.priority) (by
      intro x hx
      obtain ⟨v, hv, rfl⟩ := List.mem_map.1 hx
      have := hcon v hv
      omega)
    rw [List.length_map] at h
    omega
  have hexneg : ∃ v ∈ vs.vals, v.priority ≤ 0 := by
    by_contra hcon
    push_neg at hcon
    have h := length_le_sum (vs.vals.map Validator.priority) (by
      intro x hx
      obtain ⟨v, hv, rfl⟩ := List.mem_map.1 hx
      have := hcon v hv
      omega)
    rw [List.length_map] at h
    omega
  have hMO0 : 0 ≤ vs.maxPriority := by
    obtain ⟨v, hv, hv0⟩ := hexpos
    exact le_trans hv0 (mem_le_maxPriority vs v hv)
  have hMI0 : vs.minPriority ≤ 0 := by
    obtain ⟨v, hv, hv0⟩ := hexneg
    exact le_trans (minPriority_le_mem vs v hv) hv0
  have hMOub : vs.maxPriority ≤ 2 * vs.totalVotingPower := by
    unfold priorityDiff at hspread
    linarith
  have hMIlb : -(2 * vs.totalVotingPower) ≤ vs.minPriority := by
    unfold priorityDiff at hspread
    linarith
  -- applied members: priority bounds
  have happne : applied ≠ [] := by
    intro h
    exact hempty (by rw [h]; rfl)
  have hmemPrio : ∀ w ∈ applied, w.priority ≤ vs.maxPriority ∧ -(2 * T) ≤ w.priority := by
    intro w hw
    rcases List.mem_append.1 (hperm.mem_iff.1 hw) with h | h
    · rw [hLS] at h
      obtain ⟨v, hv, rfl⟩ := List.mem_map.1 h
      rw [survivorOf_priority]
      constructor
      · exact mem_le_maxPriority vs v hv
      · have := minPriority_le_mem vs v hv
        linarith
    · rw [hLN] at h
      obtain ⟨c, hc, rfl⟩ := List.mem_map.1 h
      constructor
      · show c0 ≤ vs.maxPriority
        linarith
      · show -(2 * T) ≤ c0
        exact hc0b
  have hdub : priorityDiff ⟨applied, none⟩ ≤ 4 * T - 2 := by
    unfold priorityDiff
    have h1 : maxPriority ⟨applied, none⟩ ≤ 2 * vs.totalVotingPower :=
      maxPriority_le ⟨applied, none⟩ _ happne
        (fun w hw => le_trans (hmemPrio w hw).1 hMOub)
    have h2 : -(2 * T) ≤ minPriority ⟨applied, none⟩ :=
      le_minPriority ⟨applied, none⟩ _ happne (fun w hw => (hmemPrio w hw).2)
    linarith
  -- the rescale factor
  have hrx : ∃ r : Int, 1 ≤ r ∧ r ≤ 2 ∧
      (rescale ⟨applied, none⟩ (2 * T)).vals =
        applied.map (fun v => { v with priority := goDiv v.priority r }) := by
    by_cases hcond : priorityDiff ⟨applied, none⟩ > 2 * T ∧ 2 * T > 0
    · refine ⟨goDiv (priorityDiff ⟨applied, none⟩ + 2 * T - 1) (2 * T), ?_, ?_, ?_⟩
      · simp only [goDiv]
        rw [Int.tdiv_eq_ediv (by omega) (by omega)]
        rw [Int.le_ediv_iff_mul_le (by omega)]
        omega
      · simp only [goDiv]
        rw [Int.tdiv_eq_ediv (by omega) (by omega)]
        have h3 : (priorityDiff ⟨applied, none⟩ + 2 * T - 1) / (2 * T) < 3 := by
          rw [Int.ediv_lt_iff_lt_mul (by omega)]
          omega
        omega
      · simp only [rescale]
        rw [if_pos hcond]
    · refine ⟨1, le_refl 1, by omega, ?_⟩
      simp only [rescale]
      rw [if_neg hcond]
      have hid : (fun (v : Validator) => { v with priority := goDiv v.priority 1 }) =
          fun v => v := by
        funext v
        simp [goDiv, Int.tdiv_one]
      rw [hid]
      exact (List.map_id' applied).symm
  obtain ⟨r, hr1, hr2, hB⟩ := hrx
  set B := applied.map (fun v => { v with priority := goDiv v.priority r }) with hBdef
  -- lengths
  have hlenApp : applied.length = vs.vals.length + LN.length := by
    rw [hperm.length_eq, List.length_append, hLS, List.length_map]
  have hlenB : B.length = applied.length := by rw [hBdef, List.length_map]
  have hlenBpos : 0 < B.length := by
    rw [hlenB, hlenApp]
    omega
  -- center unfolding
  have hCvals : ((rescale ⟨applied, none⟩ (2 * T)).center).vals =
      B.map (fun v => { v with
        priority := v.priority - bigDiv (B.map Validator.priority).sum B.length }) := by
    unfold center
    rw [hB]
    rw [if_neg (by omega)]
  set avg := bigDiv (B.map Validator.priority).sum B.length with havgdef
  -- priorities of B
  have hBprio : B.map Validator.priority = applied.map (fun v => goDiv v.priority r) := by
    rw [hBdef, List.map_map]
    rfl
  have hLSg : (vs.vals.map (survivorOf changes)).map (fun v => goDiv v.priority r) =
      (vs.vals.map Validator.priority).map (fun x => goDiv x r) := by
    rw [List.map_map, List.map_map]
    apply List.map_congr_left
    intro v _
    show goDiv (survivorOf changes v).priority r = goDiv v.priority r
    rw [survivorOf_priority]
  set c1 := goDiv c0 r with hc1def
  have hc1neg : c1 ≤ -1 := goDiv_le_neg_one c0 r hr1 (by omega)
  have hLNg : ∀ x ∈ LN.map (fun v => goDiv v.priority r), x = c1 := by
    intro x hx
    obtain ⟨w, hw, rfl⟩ := List.mem_map.1 hx
    rw [hLN] at hw
    obtain ⟨c, hc, rfl⟩ := List.mem_map.1 hw
    rfl
  have hLNgsum : (LN.map (fun v => goDiv v.priority r)).sum = (LN.length : Int) * c1 := by
    have h := sum_eq_of_all_eq _ c1 hLNg
    rwa [List.length_map] at h
  have hSBsplit : (B.map Validator.priority).sum =
      ((vs.vals.map Validator.priority).map (fun x => goDiv x r)).sum +
      (LN.length : Int) * c1 := by
    rw [hBprio, List.Perm.sum_eq (hperm.map _), List.map_append, List.sum_append]
    rw [hLS, hLSg, hLNgsum]
  have hrpos : (0 : Int) < r := by omega
  have hLSsum : (1 : Int) - (vs.vals.length : Int) ≤
      ((vs.vals.map Validator.priority).map (fun x => goDiv x r)).sum := by
    have h := sum_map_goDiv_ge (vs.vals.map Validator.priority) r hr1
    rw [List.length_map] at h
    by_contra hcon
    push_neg at hcon
    have h2 : ((vs.vals.map Validator.priority).map (fun x => goDiv x r)).sum ≤
        -(vs.vals.length : Int) := by omega
    nlinarith [h, hcentL, h2, hmZ]
  have hc1m : c1 * (vs.vals.length : Int) ≤ -(vs.vals.length : Int) := by
    have h := mul_le_mul_of_nonneg_right hc1neg (le_trans zero_le_one hmZ)
    linarith
  have havgge : c1 ≤ avg := by
    rw [havgdef]
    simp only [bigDiv]
    rw [Int.fdiv_eq_ediv _ (Int.natCast_nonneg _)]
    rw [Int.le_ediv_iff_mul_le (by exact_mod_cast hlenBpos)]
    rw [hSBsplit, hlenB, hlenApp]
    push_cast
    linarith [hLSsum, hc1m]
  have hsum0 : 0 ≤ (B.map Validator.priority).sum - (B.length : Int) * avg := by
    rw [havgdef]
    simp only [bigDiv]
    rw [Int.fdiv_eq_ediv _ (Int.natCast_nonneg _)]
    have h1 := Int.ediv_add_emod (B.map Validator.priority).sum (B.length : Int)
    have h2 := Int.emod_nonneg (B.map Validator.priority).sum
      (show ((B.length : Int)) ≠ 0 by omega)
    linarith
  -- part 1: newcomer's raw priority
  have hpart1 : ∀ w ∈ applied, w.addr = a → w.priority = c0 := by
    intro w hw hwaddr
    rcases List.mem_append.1 (hperm.mem_iff.1 hw) with h | h
    · rw [hLS] at h
      obtain ⟨v, hv, rfl⟩ := List.mem_map.1 h
      rw [survivorOf_addr] at hwaddr
      exact absurd hwaddr (hnew v hv)
    · rw [hLN] at h
      obtain ⟨c, hc, rfl⟩ := List.mem_map.1 h
      rfl
  -- priorities of the centered set
  have hCprio : (((rescale ⟨applied, none⟩ (2 * T)).center).vals).map Validator.priority =
      applied.map (fun v => goDiv v.priority r - avg) := by
    rw [hCvals, hBdef, List.map_map, List.map_map]
    rfl
  have hCsum : ((((rescale ⟨applied, none⟩ (2 * T)).center).vals).map Validator.priority).sum =
      (B.map Validator.priority).sum - (B.length : Int) * avg := by
    have h1 : applied.map (fun v => goDiv v.priority r - avg) =
        (applied.map (fun v => goDiv v.priority r)).map (fun x => x - avg) := by
      rw [List.map_map]
      rfl
    rw [hCprio, h1, sum_map_sub_const, ← hBprio]
    have h2 : (B.map Validator.priority).length = B.length := by
      rw [List.length_map]
    rw [h2]
  refine ⟨hpart1, ?_⟩
  -- part 2: the centered newcomer
  intro w hw hwaddr
  rw [hCvals] at hw
  obtain ⟨u', hu', rfl⟩ := List.mem_map.1 hw
  rw [hBdef] at hu'
  obtain ⟨u, hu, rfl⟩ := List.mem_map.1 hu'
  have huaddr : u.addr = a := hwaddr
  have hupr : u.priority = c0 := hpart1 u hu huaddr
  have hwpr : ({ { u with priority := goDiv u.priority r } with
      priority := Validator.priority { u with priority := goDiv u.priority r } - avg }
        : Validator).priority = c1 - avg := by
    show goDiv u.priority r - avg = c1 - avg
    rw [hupr]
  constructor
  · rw [hwpr]
    linarith
  · intro p hp
    obtain ⟨hpmem, hpmax⟩ := findProposer_spec _ p hp
    by_contra hcon
    push_neg at hcon
    rw [hwpr] at hcon
    -- all centered priorities are ≤ 0 and they sum to ≥ 0, hence all are 0
    have hwmem : ({ { u with priority := goDiv u.priority r } with
        priority := Validator.priority { u with priority := goDiv u.priority r } - avg }
          : Validator) ∈ ((rescale ⟨applied, none⟩ (2 * T)).center).vals := by
      rw [hCvals]
      exact List.mem_map_of_mem _ (by rw [hBdef]; exact List.mem_map_of_mem _ hu)
    have hallle : ∀ x ∈ (((rescale ⟨applied, none⟩ (2 * T)).center).vals).map
        Validator.priority, x ≤ 0 := by
      intro x hx
      obtain ⟨w', hw', rfl⟩ := List.mem_map.1 hx
      have h1 := hpmax w' hw'
      have h2 : p.priority ≤ c1 - avg := hcon
      have h3 : c1 - avg ≤ 0 := by linarith
      linarith
    have hzero := all_zero_of_sum_nonneg _ hallle (by rw [hCsum]; exact hsum0)
    have havgeq : avg = c1 := by
      have h := hzero _ (List.mem_map_of_mem Validator.priority hwmem)
      rw [hwpr] at h
      omega
    have holdneg : ∀ v ∈ vs.vals, v.priority ≤ -1 := by
      intro v hv
      have h1 : survivorOf changes v ∈ applied :=
        hperm.mem_iff.2 (List.mem_append_left _ (by
          rw [hLS]; exact List.mem_map_of_mem _ hv))
      have h3 : goDiv (survivorOf changes v).priority r - avg = 0 := by
        apply hzero
        rw [hCprio]
        exact List.mem_map_of_mem _ h1
      rw [survivorOf_priority] at h3
      by_contra hcon2
      push_neg at hcon2
      have h4 : 0 ≤ goDiv v.priority r := goDiv_nonneg v.priority r (by omega) (by omega)
      omega
    have h5 := sum_le_neg_length (vs.vals.map Validator.priority) (by
      intro x hx
      obtain ⟨v, hv, rfl⟩ := List.mem_map.1 hx
      exact holdneg v hv)
    rw [List.length_map] at h5
    omega


/-- C3 witness: adding address 3 (power 5) to the two-validator fixture
set puts it at raw priority `-22`, final priority `-14 < 0`, strictly
below the proposer. -/
theorem claim_C3_witness :
    ∃ vs', ValidatorSet.updateWithChangeSet ⟨[⟨1, 10, 0⟩, ⟨2, 5, 0⟩], none⟩ [⟨3, 5⟩] =
        .ok vs' ∧
      (∀ w ∈ ValidatorSet.applyChanges [⟨1, 10, 0⟩, ⟨2, 5, 0⟩] [⟨3, 5⟩]
          (-(ValidatorSet.totalAfter [⟨1, 10, 0⟩, ⟨2, 5, 0⟩] [⟨3, 5⟩] +
            goDiv (ValidatorSet.totalAfter [⟨1, 10, 0⟩, ⟨2, 5, 0⟩] [⟨3, 5⟩]) 8)),
        w.addr = 3 →
          w.priority = -(ValidatorSet.totalAfter [⟨1, 10, 0⟩, ⟨2, 5, 0⟩] [⟨3, 5⟩] +
            goDiv (ValidatorSet.totalAfter [⟨1, 10, 0⟩, ⟨2, 5, 0⟩] [⟨3, 5⟩]) 8)) ∧
      ∀ w ∈ vs'.vals, w.addr = 3 →
        w.priority ≤ 0 ∧ ∀ p, vs'.findProposer = some p → w.priority < p.priority := by
  cases hret : ValidatorSet.updateWithChangeSet ⟨[⟨1, 10, 0⟩, ⟨2, 5, 0⟩], none⟩ [⟨3, 5⟩] with
  | error e =>
      have hne : isErr (ValidatorSet.updateWithChangeSet
          ⟨[⟨1, 10, 0⟩, ⟨2, 5, 0⟩], none⟩ [⟨3, 5⟩]) = false := by decide
      rw [hret] at hne
      exact Bool.noConfusion hne
  | ok vs' =>
      have h := claim_C3 ⟨[⟨1, 10, 0⟩, ⟨2, 5, 0⟩], none⟩ [⟨3, 5⟩] vs' 3
        (by decide) (by decide) (by decide) (by decide) (by decide) (by decide)
        (by decide) (by decide) hret
      exact ⟨vs', rfl, h.1, h.2⟩



/-! ### Helper lemmas for the state store (C4) -/

namespace ValidatorSet

theorem simplified_rescale (vs : ValidatorSet) (d : Int) :
    (vs.rescale d).simplified = vs.simplified := by
  simp only [rescale]
  split
  · simp only [simplified, List.map_map]
    rfl
  · rfl

theorem simplified_center (vs : ValidatorSet) :
    vs.center.simplified = vs.simplified := by
  simp only [center]
  split
  · rfl
  · simp only [simplified, List.map_map]
    rfl

theorem simplified_rawStep (vs : ValidatorSet) :
    vs.rawStep.simplified = vs.simplified := by
  simp only [rawStep]
  cases hw : findProposer
      ⟨vs.vals.map fun v => { v with priority := v.priority + v.power }, none⟩ with
  | none =>
      simp only [simplified, List.map_map]
      rfl
  | some w =>
      simp only [simplified, List.map_map]
      apply List.map_congr_left
      intro v _
      by_cases h : v.addr = w.addr <;> simp [h]

theorem increment_succ (n : Nat) (vs : ValidatorSet) :
    incrementProposerPriority (n + 1) vs = (incrementProposerPriority n vs).rawStep := rfl

theorem simplified_increment (n : Nat) (vs : ValidatorSet) :
    (incrementProposerPriority n vs).simplified = vs.simplified := by
  induction n with
  | zero =>
      show ((vs.rescale (2 * vs.totalVotingPower)).center).simplified = vs.simplified
      rw [simplified_center, simplified_rescale]
  | succ n ih =>
      rw [increment_succ, simplified_rawStep, ih]

theorem hash_eq_of_simplified_eq (a b : ValidatorSet) (h : a.simplified = b.simplified) :
    a.hash = b.hash := by
  have key : ∀ (c : ValidatorSet),
      c.vals.map (fun v => Bytes.validator v.addr v.power) =
        c.simplified.map (fun p => Bytes.validator p.1 p.2) := by
    intro c
    simp only [simplified, List.map_map]
    rfl
  unfold ValidatorSet.hash
  rw [key a, key b, h]

end ValidatorSet

theorem getVals_putVals (h k : Nat) (vi : ValidatorsInfo) (st : Store) :
    getVals k (putVals h vi st) = if h = k then some vi else getVals k st := by
  unfold getVals putVals
  by_cases hk : h = k
  · subst hk
    rw [if_pos rfl]
    simp [List.find?_cons_of_pos]
  · rw [if_neg hk]
    simp only []
    rw [List.find?_cons_of_neg]
    simp only [beq_iff_eq]
    exact hk


theorem checkpointHeight_le (k : Nat) : checkpointHeight k ≤ k := by
  unfold checkpointHeight valSetCheckpointInterval
  omega

theorem checkpointHeight_lt (k : Nat) (h : k % valSetCheckpointInterval ≠ 0) :
    checkpointHeight k < k := by
  unfold checkpointHeight
  unfold valSetCheckpointInterval at h ⊢
  omega

theorem checkpointHeight_mod (k : Nat) :
    checkpointHeight k % valSetCheckpointInterval = 0 := by
  unfold checkpointHeight valSetCheckpointInterval
  omega

theorem getVals_eq_of_valEntries {st1 st2 : Store} (h : st1.valEntries = st2.valEntries)
    (k : Nat) : getVals k st1 = getVals k st2 := by
  unfold getVals
  rw [h]

theorem loadValidators_eq_of_valEntries {st1 st2 : Store}
    (h : st1.valEntries = st2.valEntries) (k : Nat) :
    loadValidators k st1 = loadValidators k st2 := by
  have hg : ∀ j, getVals j st1 = getVals j st2 := getVals_eq_of_valEntries h
  unfold loadValidators
  simp only [hg]

theorem valEntries_saveState (s : SMState) (st : Store) :
    (saveState s st).valEntries =
      (saveValidatorsInfo (s.lastBlockHeight + 1 + 1) s.lastHeightValidatorsChanged
        s.nextValidators
        (if s.lastBlockHeight + 1 = 1 then saveValidatorsInfo 1 1 s.validators st
         else st)).valEntries := by
  simp only [saveState]
  by_cases hp : s.lastHeightConsensusParamsChanged = s.lastBlockHeight + 1
  · rw [if_pos hp]
  · rw [if_neg hp]

theorem loadValidators_putVals_high (k hnew : Nat) (vi : ValidatorsInfo) (st : Store)
    (hWF : ∀ j vj, getVals j st = some vj → vj.lastHeightChanged ≤ j)
    (hk : k < hnew) :
    loadValidators k (putVals hnew vi st) = loadValidators k st := by
  unfold loadValidators
  by_cases h1 : k < 1
  · rw [if_pos h1, if_pos h1]
  rw [if_neg h1, if_neg h1]
  rw [getVals_putVals, if_neg (by omega)]
  cases hg : getVals k st with
  | none => rfl
  | some vj =>
      cases hvset : vj.valSet with
      | some vs => simp [hvset]
      | none =>
          simp only [hvset]
          have hlsh : lastStoredHeightFor k vj.lastHeightChanged ≤ k := by
            unfold lastStoredHeightFor
            have h2 := hWF k vj hg
            have h3 := checkpointHeight_le k
            omega
          rw [getVals_putVals, if_neg (by omega)]


theorem updateState_fields (s : SMState) (blockID : BlockID) (header : Header)
    (responses : FinalizeBlockResponse) (ups : List VUpdate) (s' : SMState)
    (h : updateState s blockID header responses ups = .ok s') :
    ∃ applied, s.nextValidators.updateWithChangeSet ups = .ok applied ∧
      s'.validators = s.nextValidators ∧
      s'.nextValidators = applied.incrementProposerPriority 1 ∧
      s'.lastBlockHeight = header.height ∧
      s'.lastHeightValidatorsChanged =
        (if applied.simplified ≠ s.nextValidators.simplified then header.height + 2
         else s.lastHeightValidatorsChanged) := by
  simp only [updateState] at h
  cases happ : s.nextValidators.updateWithChangeSet ups with
  | error e => rw [happ] at h; exact Except.noConfusion h
  | ok applied =>
      rw [happ] at h
      cases h
      exact ⟨applied, rfl, rfl, rfl, rfl, rfl⟩

theorem storeInv_genesis (g : SMState) (hg : GenesisState g) :
    StoreInv g (saveState g emptyStore) := by
  obtain ⟨hlbh, hlhvc, hnext, _⟩ := hg
  have hstore : (saveState g emptyStore).valEntries =
      [(2, ⟨1, none⟩), (1, ⟨1, some g.validators⟩)] := by
    rw [valEntries_saveState, hlbh, hlhvc]
    norm_num [saveValidatorsInfo, putVals, emptyStore, valSetCheckpointInterval]
  have hget : ∀ k, getVals k (saveState g emptyStore) =
      if 2 = k then some ⟨1, none⟩
      else if 1 = k then some ⟨1, some g.validators⟩ else none := by
    intro k
    unfold getVals
    rw [hstore]
    by_cases h2 : 2 = k
    · subst h2
      simp
    · rw [List.find?_cons_of_neg _ (by simpa using h2), if_neg h2]
      by_cases h1 : 1 = k
      · subst h1
        simp
      · rw [List.find?_cons_of_neg _ (by simpa using h1), if_neg h1]
        rfl
  refine ⟨by omega, by omega, ?_, ?_, ?_, ?_⟩
  · intro k vi hk
    rw [hget k] at hk
    by_cases h2 : 2 = k
    · rw [if_pos h2] at hk
      cases hk
      simp only []
      omega
    · rw [if_neg h2] at hk
      by_cases h1 : 1 = k
      · rw [if_pos h1] at hk
        cases hk
        simp only []
        omega
      · rw [if_neg h1] at hk
        exact Option.noConfusion hk
  · intro j hj1 hj2 hj3 hj4
    rw [hlbh] at hj2
    rw [hlhvc] at hj4
    have hj : j = 1 := by
      rcases hj4 with h | h
      · exact h
      · unfold valSetCheckpointInterval at h
        omega
    subst hj
    refine ⟨⟨1, some g.validators⟩, g.validators, ?_, rfl, ?_⟩
    · rw [hget 1]
      norm_num
    · rw [hnext, ValidatorSet.simplified_increment]
  · rw [hlbh]
    refine ⟨g.validators, ?_, rfl⟩
    unfold loadValidators
    rw [if_neg (by omega)]
    rw [show getVals 1 (saveState g emptyStore) = some ⟨1, some g.validators⟩ from by
      rw [hget 1]; norm_num]
  · rw [hlbh]
    refine ⟨g.validators.incrementProposerPriority 1, ?_, ?_⟩
    · unfold loadValidators
      rw [if_neg (by omega)]
      rw [show getVals 2 (saveState g emptyStore) = some ⟨1, none⟩ from by
        rw [hget 2]; norm_num]
      simp only []
      rw [show lastStoredHeightFor 2 1 = 1 from by decide]
      rw [show getVals 1 (saveState g emptyStore) = some ⟨1, some g.validators⟩ from by
        rw [hget 1]; norm_num]
    · rw [ValidatorSet.simplified_increment, hnext, ValidatorSet.simplified_increment]


theorem loadValidators_shape (height : Nat) (st : Store) (vi : ValidatorsInfo)
    (hg : getVals height st = some vi) (h1 : 1 ≤ height) :
    loadValidators height st =
      (match vi.valSet with
       | some vs => .ok vs
       | none =>
           match getVals (lastStoredHeightFor height vi.lastHeightChanged) st with
           | some ⟨_, some cp⟩ =>
               .ok (cp.incrementProposerPriority
                 (height - lastStoredHeightFor height vi.lastHeightChanged))
           | _ => .error .storeCorrupt) := by
  unfold loadValidators
  rw [if_neg (by omega), hg]

theorem storeInv_step (s : SMState) (st : Store) (s' : SMState)
    (hinv : StoreInv s st) (hstep : StepOk s s') :
    StoreInv s' (saveState s' st) := by
  obtain ⟨hA1, hA2, hWF, hCP, hL1, hL2⟩ := hinv
  obtain ⟨blockID, header, responses, ups, hheight, hupd⟩ := hstep
  obtain ⟨applied, happ, hvals, hnvals, hlbh, hlhvc⟩ :=
    updateState_fields s blockID header responses ups s' hupd
  have hlbh2 : s'.lastBlockHeight = s.lastBlockHeight + 1 := by rw [hlbh, hheight]
  have hval' : (saveState s' st).valEntries =
      (putVals (s'.lastBlockHeight + 1 + 1)
        ⟨s'.lastHeightValidatorsChanged,
          if s'.lastBlockHeight + 1 + 1 = s'.lastHeightValidatorsChanged ∨
              (s'.lastBlockHeight + 1 + 1) % valSetCheckpointInterval = 0
          then some s'.nextValidators else none⟩ st).valEntries := by
    rw [valEntries_saveState]
    rw [if_neg (by omega)]
    rfl
  have hget' : ∀ k, getVals k (saveState s' st) =
      if s'.lastBlockHeight + 1 + 1 = k
      then some ⟨s'.lastHeightValidatorsChanged,
        if s'.lastBlockHeight + 1 + 1 = s'.lastHeightValidatorsChanged ∨
            (s'.lastBlockHeight + 1 + 1) % valSetCheckpointInterval = 0
        then some s'.nextValidators else none⟩
      else getVals k st := by
    intro k
    rw [getVals_eq_of_valEntries hval', getVals_putVals]
  have hsimpnext : s'.nextValidators.simplified = applied.simplified := by
    rw [hnvals, ValidatorSet.simplified_increment]
  have hA1' : 1 ≤ s'.lastHeightValidatorsChanged := by
    rw [hlhvc]
    split
    · omega
    · omega
  have hA2' : s'.lastHeightValidatorsChanged ≤ s'.lastBlockHeight + 2 := by
    rw [hlhvc]
    split
    · omega
    · omega
  refine ⟨hA1', hA2', ?_, ?_, ?_, ?_⟩
  · -- well-formed pointers
    intro k vi hk
    rw [hget' k] at hk
    by_cases hHk : s'.lastBlockHeight + 1 + 1 = k
    · rw [if_pos hHk] at hk
      cases hk
      show s'.lastHeightValidatorsChanged ≤ k
      omega
    · rw [if_neg hHk] at hk
      exact hWF k vi hk
  · -- full records at anchor heights
    intro j hj1 hj2 hj3 hj4
    by_cases hjH : s'.lastBlockHeight + 1 + 1 = j
    · subst hjH
      refine ⟨_, s'.nextValidators, by rw [hget' _, if_pos rfl], ?_, rfl⟩
      show (if s'.lastBlockHeight + 1 + 1 = s'.lastHeightValidatorsChanged ∨
          (s'.lastBlockHeight + 1 + 1) % valSetCheckpointInterval = 0
        then some s'.nextValidators else none) = some s'.nextValidators
      rw [if_pos hj4]
    · have hjlt : j ≤ s.lastBlockHeight + 2 := by omega
      by_cases hch : applied.simplified = s.nextValidators.simplified
      · have hlh : s'.lastHeightValidatorsChanged = s.lastHeightValidatorsChanged := by
          rw [hlhvc, if_neg (fun hcon => hcon hch)]
        rw [hlh] at hj3 hj4
        obtain ⟨vi, vsj, hgv, hvs, hsimp⟩ := hCP j hj1 hjlt hj3 hj4
        refine ⟨vi, vsj, ?_, hvs, ?_⟩
        · rw [hget' j, if_neg hjH]
          exact hgv
        · rw [hsimpnext, hch]
          exact hsimp
      · exfalso
        have hlh : s'.lastHeightValidatorsChanged = header.height + 2 := by
          rw [hlhvc, if_pos hch]
        omega
  · -- load at the next height
    have hkey : s'.lastBlockHeight + 1 = s.lastBlockHeight + 2 := by omega
    rw [hkey]
    obtain ⟨v, hv, hs⟩ := hL2
    refine ⟨v, ?_, ?_⟩
    · rw [loadValidators_eq_of_valEntries hval']
      rw [loadValidators_putVals_high _ _ _ _ hWF (by omega)]
      exact hv
    · rw [hvals]
      exact hs
  · -- load at the height after next
    have hkey : s'.lastBlockHeight + 2 = s'.lastBlockHeight + 1 + 1 := by omega
    rw [hkey]
    have hgetH : getVals (s'.lastBlockHeight + 1 + 1) (saveState s' st) =
        some ⟨s'.lastHeightValidatorsChanged,
          if s'.lastBlockHeight + 1 + 1 = s'.lastHeightValidatorsChanged ∨
              (s'.lastBlockHeight + 1 + 1) % valSetCheckpointInterval = 0
          then some s'.nextValidators else none⟩ := by
      rw [hget' _, if_pos rfl]
    by_cases hfull : s'.lastBlockHeight + 1 + 1 = s'.lastHeightValidatorsChanged ∨
        (s'.lastBlockHeight + 1 + 1) % valSetCheckpointInterval = 0
    · refine ⟨s'.nextValidators, ?_, rfl⟩
      rw [loadValidators_shape _ _ _ hgetH (by omega)]
      show (match (if s'.lastBlockHeight + 1 + 1 = s'.lastHeightValidatorsChanged ∨
          (s'.lastBlockHeight + 1 + 1) % valSetCheckpointInterval = 0
        then some s'.nextValidators else none : Option ValidatorSet) with
        | some vs => Except.ok vs
        | none =>
            match getVals (lastStoredHeightFor (s'.lastBlockHeight + 1 + 1)
                s'.lastHeightValidatorsChanged) (saveState s' st) with
            | some ⟨_, some cp⟩ =>
                Except.ok (cp.incrementProposerPriority
                  ((s'.lastBlockHeight + 1 + 1) - lastStoredHeightFor
                    (s'.lastBlockHeight + 1 + 1) s'.lastHeightValidatorsChanged))
            | _ => Except.error StoreErr.storeCorrupt) = Except.ok s'.nextValidators
      rw [if_pos hfull]
    · push_neg at hfull
      obtain ⟨hfull1, hfull2⟩ := hfull
      have hch : applied.simplified = s.nextValidators.simplified := by
        by_contra hne
        have hlh : s'.lastHeightValidatorsChanged = header.height + 2 := by
          rw [hlhvc, if_pos hne]
        omega
      have hlh : s'.lastHeightValidatorsChanged = s.lastHeightValidatorsChanged := by
        rw [hlhvc, if_neg (fun hcon => hcon hch)]
      have hcp_lt : checkpointHeight (s'.lastBlockHeight + 1 + 1) <
          s'.lastBlockHeight + 1 + 1 := checkpointHeight_lt _ hfull2
      have hlsh_cases : lastStoredHeightFor (s'.lastBlockHeight + 1 + 1)
            s'.lastHeightValidatorsChanged = s.lastHeightValidatorsChanged ∨
          lastStoredHeightFor (s'.lastBlockHeight + 1 + 1) s'.lastHeightValidatorsChanged %
            valSetCheckpointInterval = 0 := by
        unfold lastStoredHeightFor
        rw [hlh]
        rcases Nat.le_total (checkpointHeight (s'.lastBlockHeight + 1 + 1))
            s.lastHeightValidatorsChanged with hmx | hmx
        · left
          exact Nat.max_eq_right hmx
        · right
          rw [Nat.max_eq_left hmx]
          exact checkpointHeight_mod _
      have hlsh_ge : s.lastHeightValidatorsChanged ≤
          lastStoredHeightFor (s'.lastBlockHeight + 1 + 1) s'.lastHeightValidatorsChanged := by
        unfold lastStoredHeightFor
        rw [hlh]
        exact Nat.le_max_right _ _
      have hlsh_le : lastStoredHeightFor (s'.lastBlockHeight + 1 + 1)
          s'.lastHeightValidatorsChanged ≤ s.lastBlockHeight + 2 := by
        unfold lastStoredHeightFor
        rw [hlh]
        exact Nat.max_le.mpr ⟨by omega, by omega⟩
      have hlsh1 : 1 ≤ lastStoredHeightFor (s'.lastBlockHeight + 1 + 1)
          s'.lastHeightValidatorsChanged := by omega
      obtain ⟨⟨l2, o2⟩, vs2, hgv2, hvs2, hsimp2⟩ :=
        hCP _ hlsh1 hlsh_le hlsh_ge hlsh_cases
      have ho2 : o2 = some vs2 := hvs2
      subst ho2
      refine ⟨vs2.incrementProposerPriority
        (s'.lastBlockHeight + 1 + 1 - lastStoredHeightFor (s'.lastBlockHeight + 1 + 1)
          s'.lastHeightValidatorsChanged), ?_, ?_⟩
      · rw [loadValidators_shape _ _ _ hgetH (by omega)]
        show (match (if s'.lastBlockHeight + 1 + 1 = s'.lastHeightValidatorsChanged ∨
            (s'.lastBlockHeight + 1 + 1) % valSetCheckpointInterval = 0
          then some s'.nextValidators else none : Option ValidatorSet) with
          | some vs => Except.ok vs
          | none =>
              match getVals (lastStoredHeightFor (s'.lastBlockHeight + 1 + 1)
                  s'.lastHeightValidatorsChanged) (saveState s' st) with
              | some ⟨_, some cp⟩ =>
                  Except.ok (cp.incrementProposerPriority
                    ((s'.lastBlockHeight + 1 + 1) - lastStoredHeightFor
                      (s'.lastBlockHeight + 1 + 1) s'.lastHeightValidatorsChanged))
              | _ => Except.error StoreErr.storeCorrupt) = _
        rw [if_neg (by rintro (h | h); exact hfull1 h; exact hfull2 h)]
        rw [show getVals (lastStoredHeightFor (s'.lastBlockHeight + 1 + 1)
            s'.lastHeightValidatorsChanged) (saveState s' st) =
            some ⟨l2, some vs2⟩ from by
          rw [hget' _, if_neg (by omega)]
          exact hgv2]
      · rw [ValidatorSet.simplified_increment, hsimp2, hsimpnext, hch]


theorem storeInv_reachable (s : SMState) (st : Store) (h : ReachableSave s st) :
    StoreInv s st := by
  induction h with
  | genesis g hg => exact storeInv_genesis g hg
  | step s st s' _ hstep ih => exact storeInv_step s st s' ih hstep

/-- **C4.** After every reachable save, `LoadValidators` at
`LastBlockHeight + 1` returns a set hash-equal to `state.Validators`,
and at `LastBlockHeight + 2` a set hash-equal to
`state.NextValidators` (the loaded sets may differ from the in-memory
ones in their proposer priorities, which the hash does not cover). -/
theorem claim_C4 (s : SMState) (st : Store) (h : ReachableSave s st) :
    (∃ v, loadValidators (s.lastBlockHeight + 1) st = .ok v ∧
      v.hash = s.validators.hash) ∧
    ∃ v, loadValidators (s.lastBlockHeight + 2) st = .ok v ∧
      v.hash = s.nextValidators.hash := by
  obtain ⟨_, _, _, _, ⟨v1, h1, hs1⟩, ⟨v2, h2, hs2⟩⟩ := storeInv_reachable s st h
  exact ⟨⟨v1, h1, ValidatorSet.hash_eq_of_simplified_eq _ _ hs1⟩,
    ⟨v2, h2, ValidatorSet.hash_eq_of_simplified_eq _ _ hs2⟩⟩

/-- C4 witness: the genesis save of the two-validator fixture loads
hash-equal sets at heights 1 and 2. -/
theorem claim_C4_witness :
    GenesisState fixtureGenesis ∧
    ((∃ v, loadValidators (fixtureGenesis.lastBlockHeight + 1) fixtureGenStore = .ok v ∧
        v.hash = fixtureGenesis.validators.hash) ∧
      ∃ v, loadValidators (fixtureGenesis.lastBlockHeight + 2) fixtureGenStore = .ok v ∧
        v.hash = fixtureGenesis.nextValidators.hash) :=
  ⟨⟨rfl, rfl, rfl, by decide⟩,
    claim_C4 fixtureGenesis fixtureGenStore
      (ReachableSave.genesis fixtureGenesis ⟨rfl, rfl, rfl, by decide⟩)⟩



/-! ### The proposer-frequency loop (C1) -/

theorem shape_rescale (a : Nat) (vs : ValidatorSet) (d : Int)
    (h : ∃ v : Validator, vs.vals = [v] ∧ v.addr = a ∧
      ∀ p, vs.proposer = some p → p.addr = a) :
    ∃ v : Validator, (vs.rescale d).vals = [v] ∧ v.addr = a ∧
      ∀ p, (vs.rescale d).proposer = some p → p.addr = a := by
  obtain ⟨v, hv, hva, hp⟩ := h
  simp only [ValidatorSet.rescale]
  split
  · refine ⟨{ v with priority := goDiv v.priority (goDiv (vs.priorityDiff + d - 1) d) },
      ?_, hva, hp⟩
    rw [hv]
    rfl
  · exact ⟨v, hv, hva, hp⟩

theorem shape_center (a : Nat) (vs : ValidatorSet)
    (h : ∃ v : Validator, vs.vals = [v] ∧ v.addr = a ∧
      ∀ p, vs.proposer = some p → p.addr = a) :
    ∃ v : Validator, vs.center.vals = [v] ∧ v.addr = a ∧
      ∀ p, vs.center.proposer = some p → p.addr = a := by
  obtain ⟨v, hv, hva, hp⟩ := h
  simp only [ValidatorSet.center]
  split
  · exact ⟨v, hv, hva, hp⟩
  · refine ⟨{ v with priority := v.priority - bigDiv (vs.vals.map Validator.priority).sum vs.vals.length }, ?_, hva, hp⟩
    rw [hv]
    rfl

theorem shape_rawStep (a : Nat) (vs : ValidatorSet)
    (h : ∃ v : Validator, vs.vals = [v] ∧ v.addr = a ∧
      ∀ p, vs.proposer = some p → p.addr = a) :
    ∃ v : Validator, vs.rawStep.vals = [v] ∧ v.addr = a ∧
      ∀ p, vs.rawStep.proposer = some p → p.addr = a := by
  obtain ⟨v, hv, hva, hp⟩ := h
  simp only [ValidatorSet.rawStep, hv, List.map_cons, List.map_nil,
    ValidatorSet.findProposer, List.foldl_cons, List.foldl_nil]
  refine ⟨{ v with priority := v.priority + v.power - vs.totalVotingPower }, ?_, hva, ?_⟩
  · simp
  · intro p hp2
    cases hp2
    exact hva

theorem shape_increment (a : Nat) (vs : ValidatorSet)
    (h : ∃ v : Validator, vs.vals = [v] ∧ v.addr = a ∧
      ∀ p, vs.proposer = some p → p.addr = a) :
    ∃ v : Validator, (vs.incrementProposerPriority 1).vals = [v] ∧ v.addr = a ∧
      ∀ p, (vs.incrementProposerPriority 1).proposer = some p → p.addr = a := by
  show ∃ v : Validator, ((vs.rescale (2 * vs.totalVotingPower)).center.rawStep).vals = [v] ∧ _
  exact shape_rawStep a _ (shape_center a _ (shape_rescale a _ _ h))

theorem countRounds_singleton (a : Nat) (k : Nat) :
    ∀ vs : ValidatorSet,
      (∃ v : Validator, vs.vals = [v] ∧ v.addr = a ∧
        ∀ p, vs.proposer = some p → p.addr = a) →
      countRounds a k vs = k := by
  induction k with
  | zero => intro vs _; rfl
  | succ k ih =>
      intro vs h
      obtain ⟨v, hv, hva, hp⟩ := h
      have hprop : (match vs.getProposer with
          | some p => if p.addr = a then 1 else 0
          | none => 0) = 1 := by
        unfold ValidatorSet.getProposer
        cases hc : vs.proposer with
        | some p =>
            show (if p.addr = a then 1 else 0) = 1
            rw [if_pos (hp p hc)]
        | none =>
            have hfp : ValidatorSet.findProposer vs = some v := by
              unfold ValidatorSet.findProposer
              rw [hv]
              rfl
            show (match ValidatorSet.findProposer vs with
              | some p => if p.addr = a then 1 else 0
              | none => 0) = 1
            rw [hfp]
            show (if v.addr = a then 1 else 0) = 1
            rw [if_pos hva]
      show (match vs.getProposer with
          | some p => if p.addr = a then 1 else 0
          | none => 0) + countRounds a k (vs.incrementProposerPriority 1) = k + 1
      rw [hprop, ih _ (shape_increment a vs ⟨v, hv, hva, hp⟩)]
      omega

/-- C1 counterexample: the claim quantifies over every validator set
with positive powers, with no constraint on the proposer priorities.
Powers (1, 2) with priorities (3, -3) give total power `T = 3`; over 3
rounds the heavy-priority validator proposes all 3 times, so its count
deviates from its power 1 by 2 > N - 1 = 1. -/
theorem claim_C1_counterexample :
    ValidatorSet.totalVotingPower ⟨[⟨1, 1, 3⟩, ⟨2, 2, -3⟩], none⟩ = 3 ∧
    (∀ v ∈ ([⟨1, 1, 3⟩, ⟨2, 2, -3⟩] : List Validator), 0 < v.power) ∧
    countRounds 1 3 ⟨[⟨1, 1, 3⟩, ⟨2, 2, -3⟩], none⟩ = 3 ∧
    countRounds 2 3 ⟨[⟨1, 1, 3⟩, ⟨2, 2, -3⟩], none⟩ = 0 ∧
    ¬(((countRounds 1 3 ⟨[⟨1, 1, 3⟩, ⟨2, 2, -3⟩], none⟩ : Int) - 1).natAbs ≤ 2 - 1) := by
  decide

/-- **C1 (amended).** The frequency bound as frozen is false for
arbitrary priorities (see the counterexample).  For a single-validator
set it holds exactly at any priority: over `T = totalVotingPower`
rounds the validator is proposer every round, so its count deviates
from its power by `0 = N - 1`.  (The general zero-priority multi-set
bound is the open research-level frequency theorem and is neither
proved nor refuted here.) -/
theorem claim_C1 (a : Nat) (w prio : Int) (hw : 1 ≤ w) :
    countRounds a (Int.toNat (ValidatorSet.totalVotingPower ⟨[⟨a, w, prio⟩], none⟩))
        ⟨[⟨a, w, prio⟩], none⟩ = Int.toNat w ∧
    ((countRounds a (Int.toNat (ValidatorSet.totalVotingPower ⟨[⟨a, w, prio⟩], none⟩))
        ⟨[⟨a, w, prio⟩], none⟩ : Int) - w).natAbs ≤ 1 - 1 := by
  have htvp : ValidatorSet.totalVotingPower ⟨[⟨a, w, prio⟩], none⟩ = w := by
    show w + 0 = w
    omega
  have hcount := countRounds_singleton a
    (Int.toNat (ValidatorSet.totalVotingPower ⟨[⟨a, w, prio⟩], none⟩))
    ⟨[⟨a, w, prio⟩], none⟩
    ⟨⟨a, w, prio⟩, rfl, rfl, fun p hp => Option.noConfusion hp⟩
  have htn : Int.toNat (ValidatorSet.totalVotingPower ⟨[⟨a, w, prio⟩], none⟩) =
      Int.toNat w := by rw [htvp]
  refine ⟨by rw [hcount, htn], ?_⟩
  rw [hcount, htn]
  have : ((Int.toNat w : Int)) = w := Int.toNat_of_nonneg (by omega)
  rw [this]
  simp

/-- C1 witness: a singleton of power 5 proposes all 5 rounds. -/
theorem claim_C1_witness :
    (1 : Int) ≤ 5 ∧
    (countRounds 7 (Int.toNat (ValidatorSet.totalVotingPower ⟨[⟨7, 5, 2⟩], none⟩))
        ⟨[⟨7, 5, 2⟩], none⟩ = Int.toNat 5 ∧
      ((countRounds 7 (Int.toNat (ValidatorSet.totalVotingPower ⟨[⟨7, 5, 2⟩], none⟩))
          ⟨[⟨7, 5, 2⟩], none⟩ : Int) - 5).natAbs ≤ 1 - 1) :=
  ⟨by decide, claim_C1 7 5 2 (by decide)⟩

end Cometbft
